import Mathlib

/-!
Verification of the EPUB build pipeline (`build_epub.py`).

The Python source is shallowly embedded below.  Python strings are modelled
as `String` / `List Char` (Python compares and slices strings by code
points, as Lean does); the regular-expression scraping in the source is
embedded as explicit character-list scans that reproduce the leftmost-match
and backtracking behaviour of the concrete patterns used by the source;
fallible I/O (directory listing, file reads, writes, the external
formatter) is modelled with `Except` parameters.
-/

namespace BuildEpub

/-! ### Chapter discovery: filename handling (`discover_chapters`, `chapter_item_id`) -/

/-- `f.startswith("ch") and f.endswith(".xhtml")` — the filename filter of
`discover_chapters` (Python startswith/endswith compare code-point
sequences, modelled on the character lists). -/
def qualifies (f : String) : Bool :=
  "ch".toList.isPrefixOf f.toList && ".xhtml".toList.isSuffixOf f.toList

/-- `filename[:-6]` — the stem, i.e. the filename with the final 6
characters (".xhtml") removed. -/
def stemOf (filename : String) : String :=
  String.mk (filename.toList.take (filename.toList.length - 6))

/-- Characters before the first `'-'` (all of them when there is none):
models `s.split("-", 1)[0]`. -/
def beforeHyphen : List Char → List Char
  | [] => []
  | c :: cs => if c = '-' then [] else c :: beforeHyphen cs

/-- Characters after the first `'-'`, when a hyphen occurs: models the
second component of `s.split("-", 1)`. -/
def afterHyphen : List Char → Option (List Char)
  | [] => none
  | c :: cs => if c = '-' then some cs else afterHyphen cs

/-- `parts = stem.split("-", 1); chapter_id = parts[1] if len(parts) > 1
else stem` — the ChapterRecord id of `discover_chapters`. -/
def recordIdOf (filename : String) : String :=
  match afterHyphen (stemOf filename).toList with
  | some r => String.mk r
  | none => stemOf filename

/-- `filename.split("-", 1)[0]` — the manifest/spine id
(`chapter_item_id`). -/
def chapter_item_id (filename : String) : String :=
  String.mk (beforeHyphen filename.toList)

/-! ### Title extraction -/

/-- Leftmost occurrence of the literal `pat`: `some (b, a)` splits the
input as `b ++ pat ++ a` at the first occurrence of `pat`. -/
def splitAtSub (pat : List Char) : List Char → Option (List Char × List Char)
  | [] => if pat.isEmpty then some ([], []) else none
  | c :: rest =>
    if pat.isPrefixOf (c :: rest) then some ([], (c :: rest).drop pat.length)
    else
      match splitAtSub pat rest with
      | some (b, a) => some (c :: b, a)
      | none => none

/-- `re.search(r"<title>(.*?)</title>", content, re.DOTALL)`: the group of
the leftmost, non-greedy match, i.e. the span between the first
`<title>` and the first `</title>` after it.  (If the first `<title>`
has no `</title>` after it, no later `<title>` can match either, so the
whole search fails.) -/
def titleGroup (cs : List Char) : Option (List Char) :=
  match splitAtSub "<title>".toList cs with
  | none => none
  | some (_, rest) =>
    match splitAtSub "</title>".toList rest with
    | none => none
    | some (g, _) => some g

/-- Python `str.strip()` whitespace, restricted to the ASCII whitespace
characters (the inputs handled by the pipeline are ASCII-spaced). -/
def isPySpace (c : Char) : Bool :=
  c = ' ' || c = '\t' || c = '\n' || c = '\r' || c = '\x0b' || c = '\x0c'

/-- Python `str.strip()`: drop leading and trailing whitespace. -/
def pyStrip (cs : List Char) : List Char :=
  ((cs.dropWhile isPySpace).reverse.dropWhile isPySpace).reverse

/-- `re.sub(r"<[^>]+>", "", s)`: delete every maximal `<`…`>` span with a
non-empty `>`-free interior, scanning left to right. -/
def stripTags : List Char → List Char
  | [] => []
  | c :: rest =>
    if c = '<' then
      let inner := rest.takeWhile (fun x => x ≠ '>')
      if inner.length ≠ 0 ∧ inner.length < rest.length then
        stripTags (rest.drop (inner.length + 1))
      else
        c :: stripTags rest
    else
      c :: stripTags rest
termination_by l => l.length
decreasing_by
  · simp only [List.length_drop, List.length_cons]; omega
  · simp only [List.length_cons]; omega
  · simp only [List.length_cons]; omega

/-- Python `s.replace(pattern, repl)` for a non-empty `pattern`
(`p :: ps`): replace every non-overlapping occurrence, left to right. -/
def replaceAll (p : Char) (ps : List Char) (repl : List Char) : List Char → List Char
  | [] => []
  | c :: rest =>
    if (p :: ps).isPrefixOf (c :: rest) then
      repl ++ replaceAll p ps repl (rest.drop ps.length)
    else
      c :: replaceAll p ps repl rest
termination_by l => l.length
decreasing_by
  · simp only [List.length_drop, List.length_cons]; omega
  · simp only [List.length_cons]; omega

/-- The five chained `.replace` calls of `discover_chapters`, in source
order. -/
def decodeEntities (cs : List Char) : List Char :=
  replaceAll '&' "amp;".toList "&".toList
    (replaceAll '&' "ldquo;".toList "“".toList
      (replaceAll '&' "rdquo;".toList "”".toList
        (replaceAll '&' "lsquo;".toList "‘".toList
          (replaceAll '&' "rsquo;".toList "’".toList cs))))

/-- Title computation of `discover_chapters`: take the first
`<title>…</title>` group and `.strip()` it (falling back to the chapter
id when there is no match), then delete markup tags, then decode the
five named entities. -/
def extractTitle (content chapterId : String) : String :=
  let base : List Char :=
    match titleGroup content.toList with
    | some g => pyStrip g
    | none => chapterId.toList
  String.mk (decodeEntities (stripTags base))

/-! ### Level extraction -/

/-- Regex word characters (`\w`), ASCII range (the inputs handled by the
pipeline use ASCII attribute syntax). -/
def isWordChar (c : Char) : Bool :=
  c.isAlphanum || c = '_'

/-- Attempt the tail `epub:type="([^"]+)"` of the level regex at the given
position: the literal `epub:type="`, then a non-empty greedy run of
non-quote characters, then a closing quote. -/
def attrHere (suffix : List Char) : Option (List Char) :=
  if "epub:type=\"".toList.isPrefixOf suffix then
    let after := suffix.drop 11
    let v := after.takeWhile (fun x => x ≠ '"')
    if v.length ≠ 0 ∧ v.length < after.length then some v else none
  else none

/-- Backtracking for the greedy `[^>]*` of the level regex: `midRev` is
the reversed candidate for `[^>]*` (longest first) and `suffix` the
rest of the input.  `\b` then requires the last consumed character to
be a non-word character (when the candidate is empty the previous
character is the `n` of `<section`, a word character, so the boundary
fails and the candidate is rejected without trying the literal). -/
def findAttrBack : List Char → List Char → Option (List Char)
  | [], _ => none
  | c :: midRev, suffix =>
    if isWordChar c then
      findAttrBack midRev (c :: suffix)
    else
      match attrHere suffix with
      | some v => some v
      | none => findAttrBack midRev (c :: suffix)

/-- `re.search(r'<section[^>]*\bepub:type="([^"]+)"', content)`: scan for
the leftmost `<section` from which the rest of the pattern matches,
trying the longest `[^>]*` first. -/
def sectionEpubType : List Char → Option (List Char)
  | [] => none
  | c :: rest =>
    if "<section".toList.isPrefixOf (c :: rest) then
      match findAttrBack ((rest.drop 7).takeWhile fun x => x ≠ '>').reverse
          ((rest.drop 7).drop ((rest.drop 7).takeWhile fun x => x ≠ '>').length) with
      | some v => some v
      | none => sectionEpubType rest
    else sectionEpubType rest

/-- `epub_type = type_match.group(1) if type_match else "chapter";
level = 2 if epub_type == "part" else 3`. -/
def extractLevel (content : String) : Nat :=
  let epubType : String :=
    match sectionEpubType content.toList with
    | some v => String.mk v
    | none => "chapter"
  if epubType = "part" then 2 else 3

/-! ### Chapter records and discovery -/

/-- One discovered chapter (the dict appended by `discover_chapters`). -/
structure Chapter where
  filename : String
  id : String
  title : String
  level : Nat
deriving DecidableEq

/-- The record built for one qualifying file from its name and its
contents. -/
def mkChapter (filename content : String) : Chapter :=
  { filename := filename
    id := recordIdOf filename
    title := extractTitle content (recordIdOf filename)
    level := extractLevel content }

/-- `discover_chapters`, with the directory listing and the file-content
map abstracted: filter the listing to `ch*.xhtml` names, sort
ascending, and build one record per surviving name. -/
def discover_chapters (listing : List String) (readFile : String → String) :
    List Chapter :=
  ((listing.filter qualifies).mergeSort).map fun f => mkChapter f (readFile f)

/-! ### Configuration constants -/

def BOOK_TITLE : String := "Living Enlightenment, Unabridged, 7th Edition"

def BOOK_AUTHOR : String :=
  "KAILASA’s SPH JGM HDH Bhagavan Sri Nithyananda Paramashivam"

def BOOK_LANGUAGE : String := "en"

def BOOK_UUID : String := "b1a4e7c2-3f8d-4a2e-9c1b-5d6e7f8a9b0c"

/-- The static major-section configuration (`MAJOR_SECTIONS`): a title and
the part ids grouped under it. -/
def MAJOR_SECTIONS : List (String × List String) :=
  [("I. YOU ARE YOUR EMOTIONS",
    ["flow-in-love", "there-is-nothing-to-worry", "excel-without-stress",
     "face-your-fears-and-be-free"])]

/-! ### content.opf (`build_content_opf`) -/

/-- One `<item …/>` line of the OPF manifest. -/
structure ManifestItem where
  id : String
  href : String
  mediaType : String
  properties : Option String
deriving DecidableEq

/-- The five fixed manifest entries, in source order. -/
def fixedManifestItems : List ManifestItem :=
  [⟨"cover-image", "Images/cover.jpg", "image/jpeg", some "cover-image"⟩,
   ⟨"style", "Styles/style.css", "text/css", none⟩,
   ⟨"nav", "toc.xhtml", "application/xhtml+xml", some "nav"⟩,
   ⟨"cover", "Text/cover.xhtml", "application/xhtml+xml", none⟩,
   ⟨"title-page", "Text/title-page.xhtml", "application/xhtml+xml", none⟩]

/-- The manifest entry appended for one chapter record. -/
def chapterManifestItem (ch : Chapter) : ManifestItem :=
  ⟨chapter_item_id ch.filename, "Text/" ++ ch.filename,
   "application/xhtml+xml", none⟩

/-- The full manifest: fixed entries, then one per chapter in scan order. -/
def manifestItems (chapters : List Chapter) : List ManifestItem :=
  fixedManifestItems ++ chapters.map chapterManifestItem

/-- The three fixed spine idrefs, in source order. -/
def fixedSpineIdrefs : List String :=
  ["cover", "title-page", "nav"]

/-- The full spine, as the list of `idref` values: fixed entries then one
per chapter in scan order. -/
def spineIdrefs (chapters : List Chapter) : List String :=
  fixedSpineIdrefs ++ chapters.map fun ch => chapter_item_id ch.filename

/-- Render one manifest `<item …/>` line exactly as the source does. -/
def renderManifestItem (it : ManifestItem) : String :=
  "    <item id=\"" ++ it.id ++ "\" href=\"" ++ it.href
    ++ "\" media-type=\"" ++ it.mediaType ++ "\""
    ++ (match it.properties with
        | some p => " properties=\"" ++ p ++ "\""
        | none => "")
    ++ " />"

/-- Render one spine `<itemref …/>` line exactly as the source does. -/
def renderSpineItem (idref : String) : String :=
  "    <itemref idref=\"" ++ idref ++ "\" />"

/-- `build_content_opf`, with the UTC timestamp string abstracted as
`now`. -/
def build_content_opf (chapters : List Chapter) (now : String) : String :=
  "<?xml version=\"1.0\" encoding=\"utf-8\"?>\n"
  ++ "<package xmlns=\"http://www.idpf.org/2007/opf\" unique-identifier=\"BookId\" version=\"3.0\">\n"
  ++ "  <metadata xmlns:dc=\"http://purl.org/dc/elements/1.1/\">\n"
  ++ "    <dc:identifier id=\"BookId\">urn:uuid:" ++ BOOK_UUID ++ "</dc:identifier>\n"
  ++ "    <dc:title>" ++ BOOK_TITLE ++ "</dc:title>\n"
  ++ "    <dc:creator>" ++ BOOK_AUTHOR ++ "</dc:creator>\n"
  ++ "    <dc:language>" ++ BOOK_LANGUAGE ++ "</dc:language>\n"
  ++ "    <meta property=\"dcterms:modified\">" ++ now ++ "</meta>\n"
  ++ "  </metadata>\n"
  ++ "  <manifest>\n"
  ++ String.intercalate "\n" ((manifestItems chapters).map renderManifestItem) ++ "\n"
  ++ "  </manifest>\n"
  ++ "  <spine>\n"
  ++ String.intercalate "\n" ((spineIdrefs chapters).map renderSpineItem) ++ "\n"
  ++ "  </spine>\n"
  ++ "</package>\n"

/-! ### toc.xhtml (`build_toc_xhtml`) -/

/-- A `{title, href}` entry dict of `build_toc_xhtml`. -/
structure Entry where
  title : String
  href : String
deriving DecidableEq

/-- A part node of `parts_by_id`: its own title and href plus its child
entries. -/
structure PartNode where
  title : String
  href : String
  children : List Entry
deriving DecidableEq

/-- The link entry rendered for a chapter record (`href = Text/<filename>`,
text = title). -/
def entryOf (ch : Chapter) : Entry :=
  ⟨ch.title, "Text/" ++ ch.filename⟩

/-- The accumulator of the partition loop of `build_toc_xhtml`:
`front_items`, the insertion-ordered `parts_by_id` dict, and
`current_part_id`. -/
structure TocState where
  front : List Entry
  parts : List (String × PartNode)
  current : Option String

/-- Python `d[k] = v` on an insertion-ordered dict: replace in place when
the key exists, else append. -/
def dictInsert : List (String × PartNode) → String → PartNode → List (String × PartNode)
  | [], k, v => [(k, v)]
  | (k', v') :: rest, k, v =>
    if k' = k then (k', v) :: rest else (k', v') :: dictInsert rest k v

/-- `parts_by_id[k]["children"].append(e)`: extend the children of the
entry with key `k` (the caller always passes a present key). -/
def dictAppendChild : List (String × PartNode) → String → Entry → List (String × PartNode)
  | [], _, _ => []
  | (k', v') :: rest, k, e =>
    if k' = k then (k', { v' with children := v'.children ++ [e] }) :: rest
    else (k', v') :: dictAppendChild rest k e

/-- Dict lookup (`parts_by_id[pid]`, `pid in parts_by_id`). -/
def dictFind : List (String × PartNode) → String → Option PartNode
  | [], _ => none
  | (k', v') :: rest, k => if k' = k then some v' else dictFind rest k

/-- One iteration of the partition loop of `build_toc_xhtml`. -/
def tocStep (s : TocState) (ch : Chapter) : TocState :=
  if ch.level == 2 then
    { s with
      current := some ch.id
      parts := dictInsert s.parts ch.id ⟨ch.title, "Text/" ++ ch.filename, []⟩ }
  else
    match s.current with
    | some pid => { s with parts := dictAppendChild s.parts pid (entryOf ch) }
    | none => { s with front := s.front ++ [entryOf ch] }

/-- The partition loop over the whole chapter list. -/
def tocScan (chapters : List Chapter) : TocState :=
  chapters.foldl tocStep ⟨[], [], none⟩

/-- One output line of the `toc_body`, tagged by which template produced
it; `renderTocLine` recovers the exact text. -/
inductive TocLine
  | olOpen (cls : String)
  | olClose
  | frontLink (title href : String)
  | sectionHeading (title : String)
  | partOpen
  | partLink (title href : String)
  | chOlOpen
  | chOlClose
  | chapterLink (title href : String)
  | partClose
deriving DecidableEq

/-- The exact text of each `toc_body` line, as appended by the source. -/
def renderTocLine : TocLine → String
  | .olOpen cls => "    <ol class=\"" ++ cls ++ "\">"
  | .olClose => "    </ol>"
  | .frontLink t h =>
      "      <li class=\"toc-front\"><a href=\"" ++ h ++ "\">" ++ t ++ "</a></li>"
  | .sectionHeading t => "    <h2 class=\"toc-section\">" ++ t ++ "</h2>"
  | .partOpen => "      <li class=\"toc-part\">"
  | .partLink t h => "        <a href=\"" ++ h ++ "\">" ++ t ++ "</a>"
  | .chOlOpen => "        <ol class=\"toc-chapters\">"
  | .chOlClose => "        </ol>"
  | .chapterLink t h =>
      "          <li><a href=\"" ++ h ++ "\">" ++ t ++ "</a></li>"
  | .partClose => "      </li>"

/-- The lines rendered for one part: `<li>`, the part link, the nested
chapter list when non-empty, `</li>` (identical in the section loop
and the orphan loop of the source). -/
def renderPartLines (p : PartNode) : List TocLine :=
  [.partOpen, .partLink p.title p.href]
  ++ (if p.children.isEmpty then []
      else .chOlOpen :: p.children.map (fun c => .chapterLink c.title c.href)
           ++ [.chOlClose])
  ++ [.partClose]

/-- The lines of one configured major section: heading, then the parts
found in the dict, in configured order (missing ids are skipped). -/
def sectionLines (parts : List (String × PartNode)) (sec : String × List String) :
    List TocLine :=
  [.sectionHeading sec.1, .olOpen "toc-parts"]
  ++ (sec.2.filterMap (dictFind parts)).flatMap renderPartLines
  ++ [.olClose]

/-- The part ids a section adds to `part_ids_used`: those of its
configured list that are present in the dict. -/
def sectionUsedIds (parts : List (String × PartNode)) (sec : String × List String) :
    List String :=
  sec.2.filter fun pid => (dictFind parts pid).isSome

/-- The `toc_body` line list of `build_toc_xhtml`: front-matter list, the
configured major sections, then the ungrouped leftover parts. -/
def tocLines (chapters : List Chapter) (sections : List (String × List String)) :
    List TocLine :=
  let s := tocScan chapters
  let used := sections.flatMap (sectionUsedIds s.parts)
  let orphans := s.parts.filter fun p => !(used.contains p.1)
  (.olOpen "toc-front-matter"
     :: s.front.map (fun e => .frontLink e.title e.href) ++ [.olClose])
  ++ sections.flatMap (sectionLines s.parts)
  ++ (if orphans.isEmpty then []
      else .olOpen "toc-parts" :: orphans.flatMap (fun p => renderPartLines p.2)
           ++ [.olClose])

/-- `build_toc_xhtml`: the fixed document template with the joined
`toc_body` spliced in, rendered with the static configuration. -/
def build_toc_xhtml (chapters : List Chapter) : String :=
  "<?xml version=\"1.0\" encoding=\"utf-8\"?>\n"
  ++ "<!DOCTYPE html>\n"
  ++ "<html xmlns=\"http://www.w3.org/1999/xhtml\" xmlns:epub=\"http://www.idpf.org/2007/ops\" lang=\"en\" xml:lang=\"en\">\n"
  ++ "<head>\n"
  ++ "  <meta charset=\"utf-8\" />\n"
  ++ "  <title>Table of Contents</title>\n"
  ++ "  <link href=\"Styles/style.css\" rel=\"stylesheet\" type=\"text/css\" />\n"
  ++ "</head>\n"
  ++ "<body>\n"
  ++ "  <nav epub:type=\"toc\" id=\"toc\">\n"
  ++ "    <h1 class=\"toc-title\">Contents</h1>\n"
  ++ String.intercalate "\n" ((tocLines chapters MAJOR_SECTIONS).map renderTocLine) ++ "\n"
  ++ "  </nav>\n"
  ++ "</body>\n"
  ++ "</html>\n"

/-- Closed-form characterization of the `parts_by_id` dict built by the
partition loop, valid when the level-2 ids are duplicate-free: one
node per level-2 record, in scan order, whose children are the level-3
records following it up to the next level-2 record. -/
def partsOf : List Chapter → List (String × PartNode)
  | [] => []
  | c :: cs =>
    if c.level == 2 then
      (c.id, ⟨c.title, "Text/" ++ c.filename,
              (cs.takeWhile fun x => !(x.level == 2)).map entryOf⟩) :: partsOf cs
    else partsOf cs

/-- The link carried by a front-matter line. -/
def frontLink? : TocLine → Option Entry
  | .frontLink t h => some ⟨t, h⟩
  | _ => none

/-- The link carried by a part line. -/
def partLink? : TocLine → Option Entry
  | .partLink t h => some ⟨t, h⟩
  | _ => none

/-- The link carried by a nested chapter line. -/
def chapterLink? : TocLine → Option Entry
  | .chapterLink t h => some ⟨t, h⟩
  | _ => none

/-- The front-matter links of a rendered `toc_body`, in order. -/
def frontLinks (ls : List TocLine) : List Entry :=
  ls.filterMap frontLink?

/-- The part links of a rendered `toc_body`, in order. -/
def partLinks (ls : List TocLine) : List Entry :=
  ls.filterMap partLink?

/-- The nested chapter links of a rendered `toc_body`, in order. -/
def chapterLinks (ls : List TocLine) : List Entry :=
  ls.filterMap chapterLink?

/-! ### Archive packaging (`build_epub`, step 4) -/

/-- A node of the working-directory tree walked by `os.walk`. -/
inductive FsTree
  | file (name : String)
  | dir (name : String) (children : List FsTree)

/-- Zip compression methods used by the source. -/
inductive Compression
  | stored
  | deflated
deriving DecidableEq

/-- One entry written to the archive. -/
structure ZipEntry where
  arcname : String
  compress : Compression
deriving DecidableEq

/-- `os.path.relpath` joining below the root: the bare name at the root,
`pre/name` below it. -/
def joinPath (pre name : String) : String :=
  if pre = "" then name else pre ++ "/" ++ name

/-- The file names of one directory level. -/
def fileNames (children : List FsTree) : List String :=
  children.filterMap fun t =>
    match t with
    | .file n => some n
    | .dir _ _ => none

/-- The per-directory body of the walk loop: sorted file names, skipping
the root `mimetype` entry and the excluded extensions, each written
deflated at its path relative to the root. -/
def dirEntries (pre : String) (children : List FsTree) : List ZipEntry :=
  (fileNames children).mergeSort.filterMap fun f =>
    if joinPath pre f = "mimetype" then none
    else if ".py".toList.isSuffixOf f.toList || ".epub".toList.isSuffixOf f.toList
        || ".DS_Store".toList.isSuffixOf f.toList then none
    else some ⟨joinPath pre f, .deflated⟩

/-- Subdirectory names kept by the pruning of the walk loop. -/
def keepDir (n : String) : Bool :=
  !(n.startsWith ".") && n != "__pycache__"

/-- The recursive part of `os.walk` below one directory level: each kept
subdirectory contributes its own files and then its subtree. -/
def walkSub : String → List FsTree → List ZipEntry
  | _, [] => []
  | pre, .file _ :: rest => walkSub pre rest
  | pre, .dir n cs :: rest =>
    (if keepDir n then
       dirEntries (joinPath pre n) cs ++ walkSub (joinPath pre n) cs
     else [])
    ++ walkSub pre rest

/-- All entries written by the packaging step: the stored `mimetype`
first, then the walk of the root directory. -/
def buildArchiveEntries (rootChildren : List FsTree) : List ZipEntry :=
  ⟨"mimetype", .stored⟩ :: (dirEntries "" rootChildren ++ walkSub "" rootChildren)

/-- All file paths of a tree relative to the root, with no pruning,
sorting or skipping: the declarative path enumeration the archive
entry names are checked against. -/
def treePaths : String → List FsTree → List String
  | _, [] => []
  | pre, .file n :: rest => joinPath pre n :: treePaths pre rest
  | pre, .dir n cs :: rest => treePaths (joinPath pre n) cs ++ treePaths pre rest

/-! ### The fallible pipeline (`build_epub`) -/

/-- The loop body of `discover_chapters` with fallible reads: the first
failing read aborts the whole loop, discarding every record built so
far. -/
def readLoop (readFile : String → Except String String) :
    List String → Except String (List Chapter)
  | [] => .ok []
  | f :: rest =>
    match readFile f with
    | .error e => .error e
    | .ok content =>
      match readLoop readFile rest with
      | .error e => .error e
      | .ok chs => .ok (mkChapter f content :: chs)

/-- `discover_chapters` with fallible directory listing and reads: a
listing failure or any read failure propagates and no partial list is
produced. -/
def discover_chaptersE (listing : Except String (List String))
    (readFile : String → Except String String) : Except String (List Chapter) :=
  match listing with
  | .error e => .error e
  | .ok names => readLoop readFile ((names.filter qualifies).mergeSort)

/-- What the pipeline has produced so far: the two generated documents,
the archive, and the log lines of the formatter step. -/
structure BuildResult where
  toc : Option String
  opf : Option String
  epub : Option (List ZipEntry)
  log : List String
deriving DecidableEq

/-- The state before any output is written. -/
def emptyBuild : BuildResult := ⟨none, none, none, []⟩

/-- The file list handed to the formatter: the navigation document and
every chapter file. -/
def generatedFiles (chapters : List Chapter) : List String :=
  "OEBPS/toc.xhtml" :: chapters.map fun ch => "OEBPS/Text/" ++ ch.filename

/-- The formatter warning printed when the subprocess is absent or fails. -/
def formatterWarning : String := "  Prettier not available, skipping formatting"

/-- `build_epub`, with every external effect abstracted: discovery
(listing + reads), the two document writes, the formatter subprocess,
and the packaging step (`package`, covering the `os.remove` of a
pre-existing destination and the zip writes of the walked entries,
which are fatal on error).  Each stage runs only if every earlier
stage succeeded; a formatter failure is caught, logged and ignored —
the pipeline still proceeds to packaging; every other failure aborts
with the state written so far.  (Progress prints other than the
formatter messages are omitted.) -/
def build_epubRun (listing : Except String (List String))
    (readFile : String → Except String String)
    (writeToc writeOpf : String → Except String Unit)
    (fmt : List String → Except String Unit)
    (package : List ZipEntry → Except String Unit)
    (tree : List FsTree) (now : String) : BuildResult × Except String Unit :=
  match discover_chaptersE listing readFile with
  | .error e => (emptyBuild, .error e)
  | .ok chapters =>
    match writeToc (build_toc_xhtml chapters) with
    | .error e => (emptyBuild, .error e)
    | .ok _ =>
      match writeOpf (build_content_opf chapters now) with
      | .error e =>
        ({ emptyBuild with toc := some (build_toc_xhtml chapters) }, .error e)
      | .ok _ =>
        match package (buildArchiveEntries tree) with
        | .error e =>
          ({ toc := some (build_toc_xhtml chapters)
             opf := some (build_content_opf chapters now)
             epub := none
             log :=
               match fmt (generatedFiles chapters) with
               | .ok _ =>
                 ["  Formatted " ++ toString (generatedFiles chapters).length ++ " files"]
               | .error _ => [formatterWarning] }, .error e)
        | .ok _ =>
          ({ toc := some (build_toc_xhtml chapters)
             opf := some (build_content_opf chapters now)
             epub := some (buildArchiveEntries tree)
             log :=
               match fmt (generatedFiles chapters) with
               | .ok _ =>
                 ["  Formatted " ++ toString (generatedFiles chapters).length ++ " files"]
               | .error _ => [formatterWarning] }, .ok ())

/-! ## Theorems -/

/-! ### Hyphen splitting -/

theorem beforeHyphen_of_not_mem {cs : List Char} (h : '-' ∉ cs) :
    beforeHyphen cs = cs := by
  induction cs with
  | nil => rfl
  | cons c cs ih =>
    simp only [List.mem_cons, not_or] at h
    have hc : ¬ c = '-' := fun hh => h.1 hh.symm
    simp [beforeHyphen, hc, ih h.2]

theorem afterHyphen_eq_none_iff {cs : List Char} :
    afterHyphen cs = none ↔ '-' ∉ cs := by
  induction cs with
  | nil => simp [afterHyphen]
  | cons c cs ih =>
    by_cases hc : c = '-'
    · subst hc; simp [afterHyphen]
    · have hc' : ¬ '-' = c := fun hh => hc hh.symm
      simp [afterHyphen, hc, ih, hc']

theorem afterHyphen_eq_some {cs r : List Char} (h : afterHyphen cs = some r) :
    ∃ pre, cs = pre ++ '-' :: r ∧ '-' ∉ pre := by
  induction cs with
  | nil => simp [afterHyphen] at h
  | cons c cs ih =>
    by_cases hc : c = '-'
    · subst hc
      simp [afterHyphen] at h
      exact ⟨[], by simp [h]⟩
    · simp only [afterHyphen, if_neg hc] at h
      obtain ⟨pre, hpre, hmem⟩ := ih h
      exact ⟨c :: pre, by simp [hpre], by
        simp only [List.mem_cons, not_or]
        exact ⟨fun hh => hc hh.symm, hmem⟩⟩

theorem string_mk_inj {l₁ l₂ : List Char} (h : String.mk l₁ = String.mk l₂) :
    l₁ = l₂ := congrArg String.data h

/-- Claim C6: for every qualifying chapter filename, the record id equals
the substring of the stem (the filename without its extension) after the
first hyphen, and equals the full stem when the stem contains no hyphen;
in particular "ch003-flow-in-love.xhtml" yields id "flow-in-love" and
"ch000.xhtml" yields id "ch000". -/
theorem record_id_extraction (filename content : String) :
    (mkChapter filename content).id = recordIdOf filename
  ∧ (∀ r, afterHyphen (stemOf filename).toList = some r →
      recordIdOf filename = String.mk r
      ∧ ∃ pre, (stemOf filename).toList = pre ++ '-' :: r ∧ '-' ∉ pre)
  ∧ (afterHyphen (stemOf filename).toList = none →
      recordIdOf filename = stemOf filename ∧ '-' ∉ (stemOf filename).toList)
  ∧ recordIdOf "ch003-flow-in-love.xhtml" = "flow-in-love"
  ∧ recordIdOf "ch000.xhtml" = "ch000" := by
  refine ⟨rfl, ?_, ?_, by rfl, by rfl⟩
  · intro r h
    refine ⟨?_, afterHyphen_eq_some h⟩
    unfold recordIdOf
    rw [h]
  · intro h
    refine ⟨?_, afterHyphen_eq_none_iff.mp h⟩
    unfold recordIdOf
    rw [h]

theorem record_id_extraction_witness :
    recordIdOf "ch003-flow-in-love.xhtml" = String.mk "flow-in-love".toList
  ∧ ∃ pre, (stemOf "ch003-flow-in-love.xhtml").toList
      = pre ++ '-' :: "flow-in-love".toList ∧ '-' ∉ pre :=
  (record_id_extraction "ch003-flow-in-love.xhtml" "").2.1 "flow-in-love".toList rfl

/-! ### Claim C10: manifest id vs record id on hyphen-free filenames -/

/-- Claim C10 counterexample: the claim's "for exactly these filenames
the manifest id and the record id differ" fails in the hyphenated
direction: "ch003-flow-in-love.xhtml" qualifies, contains a hyphen,
and its manifest id "ch003" still differs from its record id
"flow-in-love". -/
theorem hyphenless_ids_differ_cex :
    qualifies "ch003-flow-in-love.xhtml" = true
  ∧ '-' ∈ "ch003-flow-in-love.xhtml".toList
  ∧ chapter_item_id "ch003-flow-in-love.xhtml" = "ch003"
  ∧ recordIdOf "ch003-flow-in-love.xhtml" = "flow-in-love"
  ∧ chapter_item_id "ch003-flow-in-love.xhtml"
      ≠ recordIdOf "ch003-flow-in-love.xhtml" :=
  ⟨by decide, by decide, by rfl, by rfl, by decide⟩

/-- Claim C10 (corrected): for every qualifying chapter filename
containing no hyphen (e.g. "ch000.xhtml"), the manifest/spine id
computed by `chapter_item_id` is the entire filename including the
".xhtml" extension, while the record id computed by
`discover_chapters` excludes the extension — so for these filenames
the manifest id and the record id differ.  (Not "exactly" these:
hyphenated filenames can have differing ids too, see the
counterexample.) -/
theorem hyphenless_ids_differ (filename : String)
    (hq : qualifies filename = true) (hh : '-' ∉ filename.toList) :
    chapter_item_id filename = filename
  ∧ recordIdOf filename = stemOf filename
  ∧ chapter_item_id filename ≠ recordIdOf filename := by
  obtain ⟨t, ht⟩ : ∃ t, filename.toList = t ++ ".xhtml".toList := by
    have h2 := (Bool.and_eq_true _ _).mp hq |>.2
    rw [List.isSuffixOf_iff_suffix] at h2
    obtain ⟨t, ht⟩ := h2
    exact ⟨t, ht.symm⟩
  have hstem : (stemOf filename).toList = t := by
    have hlen : filename.toList.length - 6 = t.length := by
      rw [ht]; simp
    show (filename.toList.take (filename.toList.length - 6)) = t
    rw [hlen, ht, List.take_left]
  have hid : chapter_item_id filename = filename := by
    show String.mk (beforeHyphen filename.toList) = filename
    rw [beforeHyphen_of_not_mem hh]
    rfl
  have hrec : recordIdOf filename = stemOf filename := by
    have hns : '-' ∉ (stemOf filename).toList := by
      rw [hstem]
      intro hmem
      exact hh (by rw [ht]; exact List.mem_append_left _ hmem)
    unfold recordIdOf
    rw [afterHyphen_eq_none_iff.mpr hns]
  refine ⟨hid, hrec, ?_⟩
  rw [hid, hrec]
  intro heq
  have : filename.toList = (stemOf filename).toList := congrArg String.toList heq
  rw [ht, hstem] at this
  have := congrArg List.length this
  simp at this

theorem hyphenless_ids_differ_witness :
    chapter_item_id "ch000.xhtml" = "ch000.xhtml"
  ∧ recordIdOf "ch000.xhtml" = stemOf "ch000.xhtml"
  ∧ chapter_item_id "ch000.xhtml" ≠ recordIdOf "ch000.xhtml" :=
  hyphenless_ids_differ "ch000.xhtml" (by decide) (by decide)

/-! ### Claim C5: discovery filters and sorts -/

/-- Claim C5: for every directory listing, `discover_chapters` produces
exactly one record per entry whose name starts with "ch" and ends with
".xhtml" (its output length equals the count of such entries), no
record for any other entry, and the records are ordered by filename
ascending. -/
theorem discovery_filter_sort (listing : List String) (readFile : String → String) :
    ((discover_chapters listing readFile).map Chapter.filename).Perm
      (listing.filter qualifies)
  ∧ ((discover_chapters listing readFile).map Chapter.filename).Sorted (· ≤ ·)
  ∧ (discover_chapters listing readFile).length = (listing.filter qualifies).length
  ∧ ∀ ch ∈ discover_chapters listing readFile, qualifies ch.filename = true := by
  have hmap : (discover_chapters listing readFile).map Chapter.filename
      = (listing.filter qualifies).mergeSort := by
    unfold discover_chapters
    rw [List.map_map]
    exact List.map_id' _
  refine ⟨?_, ?_, ?_, ?_⟩
  · rw [hmap]; exact List.mergeSort_perm _ _
  · rw [hmap]; exact List.sorted_mergeSort' _
  · have := congrArg List.length hmap
    simpa using this.trans (by simp)
  · intro ch hch
    unfold discover_chapters at hch
    obtain ⟨f, hf, rfl⟩ := List.mem_map.mp hch
    have : f ∈ (listing.filter qualifies) := List.mem_mergeSort.mp hf
    exact (List.mem_filter.mp this).2

unseal List.mergeSort List.merge stripTags replaceAll in
theorem discovery_filter_sort_witness :
    ((discover_chapters ["ch001-a.xhtml", "readme.txt"] (fun _ => "")).map
        Chapter.filename).Perm
      (["ch001-a.xhtml", "readme.txt"].filter qualifies)
  ∧ qualifies (mkChapter "ch001-a.xhtml" "").filename = true :=
  ⟨(discovery_filter_sort ["ch001-a.xhtml", "readme.txt"] (fun _ => "")).1,
   (discovery_filter_sort ["ch001-a.xhtml", "readme.txt"] (fun _ => "")).2.2.2
     (mkChapter "ch001-a.xhtml" "") (by decide)⟩

/-! ### Claim C2: manifest/spine order and referential integrity -/

/-- Claim C2: for every chapter list, the chapter manifest items and the
chapter spine itemrefs both appear in chapter-scan order, and every
idref occurring in the spine (the fixed cover, title-page and nav
entries plus one per chapter) equals the id of some manifest item. -/
theorem opf_manifest_spine (chapters : List Chapter) :
    (manifestItems chapters).map ManifestItem.id
      = fixedManifestItems.map ManifestItem.id
        ++ chapters.map (fun ch => chapter_item_id ch.filename)
  ∧ spineIdrefs chapters
      = fixedSpineIdrefs ++ chapters.map (fun ch => chapter_item_id ch.filename)
  ∧ ∀ idref ∈ spineIdrefs chapters,
      idref ∈ (manifestItems chapters).map ManifestItem.id := by
  refine ⟨?_, rfl, ?_⟩
  · unfold manifestItems
    rw [List.map_append, List.map_map]
    rfl
  · intro idref h
    rw [spineIdrefs, List.mem_append] at h
    rcases h with h | h
    · simp only [fixedSpineIdrefs, List.mem_cons, List.not_mem_nil, or_false] at h
      rcases h with rfl | rfl | rfl <;>
        simp [manifestItems, fixedManifestItems]
    · obtain ⟨ch, hch, rfl⟩ := List.mem_map.mp h
      rw [manifestItems, List.map_append, List.mem_append]
      right
      rw [List.map_map]
      exact List.mem_map.mpr ⟨ch, hch, rfl⟩

theorem opf_manifest_spine_witness :
    "cover" ∈ spineIdrefs [] ∧ "cover" ∈ (manifestItems []).map ManifestItem.id :=
  ⟨by decide, (opf_manifest_spine []).2.2 "cover" (by decide)⟩

/-! ### Substring search -/

theorem splitAtSub_eq_some {pat cs b a : List Char} :
    splitAtSub pat cs = some (b, a) →
    cs = b ++ pat ++ a
    ∧ ∀ b' a', cs = b' ++ pat ++ a' → b.length ≤ b'.length := by
  induction cs generalizing b a with
  | nil =>
    intro h
    by_cases hp : pat.isEmpty
    · have hpat : pat = [] := List.isEmpty_iff.mp hp
      simp [splitAtSub, hp] at h
      obtain ⟨rfl, rfl⟩ := h
      simp [hpat]
    · simp [splitAtSub, hp] at h
  | cons c rest ih =>
    intro h
    by_cases hp : pat.isPrefixOf (c :: rest)
    · rw [splitAtSub, if_pos hp] at h
      obtain ⟨t, ht⟩ := List.isPrefixOf_iff_prefix.mp hp
      simp only [Option.some.injEq, Prod.mk.injEq] at h
      obtain ⟨rfl, rfl⟩ := h
      have hdrop : (c :: rest).drop pat.length = t := by
        rw [← ht, List.drop_left]
      refine ⟨by rw [hdrop]; simp [← ht], fun b' a' _ => by simp⟩
    · cases hrec : splitAtSub pat rest with
      | none => rw [splitAtSub, if_neg hp, hrec] at h; cases h
      | some pr =>
        obtain ⟨b0, a0⟩ := pr
        rw [splitAtSub, if_neg hp, hrec] at h
        simp only [Option.some.injEq, Prod.mk.injEq] at h
        obtain ⟨rfl, rfl⟩ := h
        obtain ⟨ih1, ih2⟩ := ih hrec
        refine ⟨by rw [List.cons_append, List.cons_append, ← ih1], ?_⟩
        intro b' a' heq
        cases b' with
        | nil =>
          exact absurd (List.isPrefixOf_iff_prefix.mpr ⟨a', by simpa using heq.symm⟩) hp
        | cons cb b'' =>
          injection heq with h1 h2
          simpa using Nat.succ_le_succ (ih2 b'' a' h2)

theorem splitAtSub_eq_none {pat cs : List Char} :
    splitAtSub pat cs = none → ∀ b a, cs ≠ b ++ pat ++ a := by
  induction cs with
  | nil =>
    intro h b a heq
    by_cases hp : pat.isEmpty
    · simp [splitAtSub, hp] at h
    · have hpat : pat ≠ [] := fun hh => hp (List.isEmpty_iff.mpr hh)
      have hnil := heq.symm
      simp only [List.append_eq_nil] at hnil
      exact hpat hnil.1.2
  | cons c rest ih =>
    intro h b a heq
    by_cases hp : pat.isPrefixOf (c :: rest)
    · rw [splitAtSub, if_pos hp] at h; cases h
    · cases hrec : splitAtSub pat rest with
      | some pr =>
        obtain ⟨b0, a0⟩ := pr
        rw [splitAtSub, if_neg hp, hrec] at h; cases h
      | none =>
        cases b with
        | nil =>
          exact hp (List.isPrefixOf_iff_prefix.mpr ⟨a, by simpa using heq.symm⟩)
        | cons cb b' =>
          injection heq with h1 h2
          exact ih hrec b' a h2

/-! ### Level-regex soundness -/

theorem takeWhile_lt_split {p : Char → Bool} {l : List Char}
    (h : (l.takeWhile p).length < l.length) :
    ∃ c rest, l = l.takeWhile p ++ c :: rest ∧ p c = false := by
  induction l with
  | nil => simp at h
  | cons x xs ih =>
    by_cases hx : p x
    · rw [List.takeWhile_cons_of_pos hx] at h ⊢
      simp only [List.length_cons] at h
      obtain ⟨c, rest, hsplit, hc⟩ := ih (by omega)
      exact ⟨c, rest, by rw [List.cons_append, ← hsplit], hc⟩
    · rw [List.takeWhile_cons_of_neg hx]
      exact ⟨x, xs, by simp, by simpa using hx⟩

theorem takeWhile_append_drop (p : Char → Bool) :
    ∀ l : List Char, l.takeWhile p ++ l.drop (l.takeWhile p).length = l
  | [] => rfl
  | c :: cs => by
    by_cases hc : p c
    · rw [List.takeWhile_cons_of_pos hc]
      simp only [List.length_cons, List.drop_succ_cons, List.cons_append]
      rw [takeWhile_append_drop p cs]
    · rw [List.takeWhile_cons_of_neg hc]
      simp

theorem attrHere_sound {suffix v : List Char} (h : attrHere suffix = some v) :
    ∃ rest, suffix = "epub:type=\"".toList ++ (v ++ '"' :: rest)
    ∧ v ≠ [] ∧ ∀ c ∈ v, c ≠ '"' := by
  unfold attrHere at h
  by_cases hp : "epub:type=\"".toList.isPrefixOf suffix
  · rw [if_pos hp] at h
    obtain ⟨after, hafter⟩ := List.isPrefixOf_iff_prefix.mp hp
    have hdrop : suffix.drop 11 = after := by
      rw [← hafter]
      exact List.drop_left' (by rfl)
    rw [hdrop] at h
    by_cases hcond : (after.takeWhile fun x => x ≠ '"').length ≠ 0
        ∧ (after.takeWhile fun x => x ≠ '"').length < after.length
    · rw [if_pos hcond] at h
      have hv : (after.takeWhile fun x => x ≠ '"') = v := by injection h
      obtain ⟨c, rest, hsplit, hc⟩ := takeWhile_lt_split hcond.2
      have hcq : c = '"' := by
        by_contra hne
        simp [hne] at hc
      refine ⟨rest, ?_, ?_, ?_⟩
      · rw [← hafter]
        have h2 : v ++ '"' :: rest = (after.takeWhile fun x => x ≠ '"') ++ c :: rest := by
          rw [hv, hcq]
        rw [hsplit.trans h2.symm]
      · rw [← hv]
        intro hnil
        rw [hnil] at hcond
        simp at hcond
      · intro x hx
        rw [← hv] at hx
        have := List.mem_takeWhile_imp hx
        simpa using this
    · rw [if_neg hcond] at h; cases h
  · rw [if_neg hp] at h; cases h

theorem findAttrBack_sound {midRev suffix v : List Char}
    (hgt : ∀ c ∈ midRev, c ≠ '>') :
    findAttrBack midRev suffix = some v →
    ∃ m rest, midRev.reverse ++ suffix = m ++ "epub:type=\"".toList ++ v ++ '"' :: rest
    ∧ m ≠ [] ∧ (∀ c ∈ m, c ≠ '>')
    ∧ (∃ m' cl, m = m' ++ [cl] ∧ isWordChar cl = false)
    ∧ v ≠ [] ∧ (∀ c ∈ v, c ≠ '"') := by
  induction midRev generalizing suffix with
  | nil => intro h; cases h
  | cons c midRev ih =>
    intro h
    have hgt' : ∀ x ∈ midRev, x ≠ '>' := fun x hx => hgt x (List.mem_cons_of_mem _ hx)
    rw [findAttrBack] at h
    by_cases hw : isWordChar c
    · rw [if_pos hw] at h
      obtain ⟨m, rest, heq, hm⟩ := ih hgt' h
      exact ⟨m, rest, by simpa using heq, hm⟩
    · rw [if_neg hw] at h
      cases hattr : attrHere suffix with
      | some v0 =>
        rw [hattr] at h
        obtain rfl : v0 = v := by injection h
        obtain ⟨rest, hsplit, hv, hvq⟩ := attrHere_sound hattr
        refine ⟨midRev.reverse ++ [c], rest, ?_, by simp, ?_, ?_, hv, hvq⟩
        · rw [hsplit]; simp [List.append_assoc]
        · intro x hx
          rcases List.mem_append.mp hx with hx | hx
          · exact hgt' x (List.mem_reverse.mp hx)
          · rw [List.mem_singleton.mp hx]
            exact hgt c (List.mem_cons_self _ _)
        · exact ⟨midRev.reverse, c, rfl, by simpa using hw⟩
      | none =>
        rw [hattr] at h
        obtain ⟨m, rest, heq, hm⟩ := ih hgt' h
        exact ⟨m, rest, by simpa using heq, hm⟩

theorem sectionEpubType_sound {cs v : List Char} :
    sectionEpubType cs = some v →
    ∃ pre mid rest,
      cs = pre ++ "<section".toList ++ mid ++ "epub:type=\"".toList ++ v ++ '"' :: rest
    ∧ mid ≠ [] ∧ (∀ c ∈ mid, c ≠ '>')
    ∧ (∃ m' cl, mid = m' ++ [cl] ∧ isWordChar cl = false)
    ∧ v ≠ [] ∧ (∀ c ∈ v, c ≠ '"') := by
  induction cs with
  | nil => intro h; cases h
  | cons c rest0 ih =>
    intro h
    rw [sectionEpubType] at h
    by_cases hp : "<section".toList.isPrefixOf (c :: rest0)
    · rw [if_pos hp] at h
      cases hfind : findAttrBack ((rest0.drop 7).takeWhile fun x => x ≠ '>').reverse
          ((rest0.drop 7).drop ((rest0.drop 7).takeWhile fun x => x ≠ '>').length) with
      | some v0 =>
        rw [hfind] at h
        have hvv : v0 = v := by injection h
        rw [← hvv]
        obtain ⟨t0, ht0⟩ := List.isPrefixOf_iff_prefix.mp hp
        have hdrop7 : rest0.drop 7 = t0 := by
          have : (c :: rest0).drop 8 = t0 := by rw [← ht0, List.drop_left' (by rfl)]
          simpa using this
        rw [hdrop7] at hfind
        have hrun : ∀ x ∈ (t0.takeWhile fun y => y ≠ '>').reverse, x ≠ '>' := by
          intro x hx
          have := List.mem_takeWhile_imp (List.mem_reverse.mp hx)
          simpa using this
        obtain ⟨m, rr, heq, hm1, hm2, hm3, hv1, hv2⟩ := findAttrBack_sound hrun hfind
        have hfull : t0 = m ++ "epub:type=\"".toList ++ v0 ++ '"' :: rr := by
          calc t0 = (t0.takeWhile fun y => y ≠ '>')
              ++ t0.drop ((t0.takeWhile fun y => y ≠ '>')).length :=
                (takeWhile_append_drop _ t0).symm
            _ = (t0.takeWhile fun y => y ≠ '>').reverse.reverse
              ++ t0.drop ((t0.takeWhile fun y => y ≠ '>')).length := by
                rw [List.reverse_reverse]
            _ = m ++ "epub:type=\"".toList ++ v0 ++ '"' :: rr := heq
        refine ⟨[], m, rr, ?_, hm1, hm2, hm3, hv1, hv2⟩
        rw [← ht0, hfull]
        simp [List.append_assoc]
      | none =>
        rw [hfind] at h
        obtain ⟨pre, mid, rr, heq, hm⟩ := ih h
        exact ⟨c :: pre, mid, rr, by rw [heq]; rfl, hm⟩
    · rw [if_neg hp] at h
      obtain ⟨pre, mid, rr, heq, hm⟩ := ih h
      exact ⟨c :: pre, mid, rr, by rw [heq]; rfl, hm⟩

/-! ### Claim C4: level classification -/

/-- Claim C4: for every chapter file content, the extracted level is 2 if
and only if the first section tag carrying an epub:type attribute (in
the sense of the source's regex contract) has the attribute value
"part"; any other value, or no such tag, yields level 3.  The third
conjunct certifies that a successful attribute extraction really comes
from a `<section` opening followed, before any `>`, by an
`epub:type="…"` attribute with a non-empty quoted value. -/
theorem level_classification (content : String) :
    (extractLevel content = 2 ↔ sectionEpubType content.toList = some "part".toList)
  ∧ (extractLevel content = 2 ∨ extractLevel content = 3)
  ∧ (∀ v, sectionEpubType content.toList = some v →
      ∃ pre mid rest,
        content.toList = pre ++ "<section".toList ++ mid
          ++ "epub:type=\"".toList ++ v ++ '"' :: rest
      ∧ mid ≠ [] ∧ (∀ c ∈ mid, c ≠ '>')
      ∧ (∃ m' cl, mid = m' ++ [cl] ∧ isWordChar cl = false)
      ∧ v ≠ [] ∧ (∀ c ∈ v, c ≠ '"'))
  ∧ extractLevel "<section epub:type=\"part\">" = 2
  ∧ extractLevel "<section epub:type=\"chapter\">" = 3
  ∧ extractLevel "<div>no section</div>" = 3 := by
  refine ⟨?_, ?_, fun v h => sectionEpubType_sound h, by rfl, by rfl, by rfl⟩
  · unfold extractLevel
    cases hs : sectionEpubType content.toList with
    | none =>
      simp only
      constructor
      · intro h2
        exfalso
        have : ("chapter" : String) ≠ "part" := by decide
        rw [if_neg this] at h2
        omega
      · intro h; cases h
    | some v =>
      simp only
      constructor
      · intro h2
        by_cases hv : String.mk v = "part"
        · have : v = "part".toList := congrArg String.data hv
          rw [this]
        · rw [if_neg hv] at h2
          omega
      · intro h
        have : v = "part".toList := by injection h
        rw [if_pos (show String.mk v = "part" by rw [this]; rfl)]
  · unfold extractLevel
    cases sectionEpubType content.toList with
    | none =>
      by_cases h : ("chapter" : String) = "part"
      · left; simp [h]
      · right; simp [h]
    | some v =>
      by_cases h : String.mk v = "part"
      · left; simp [h]
      · right; simp [h]

theorem level_classification_witness :
    ∃ pre mid rest,
      ("<section epub:type=\"part\">").toList = pre ++ "<section".toList ++ mid
        ++ "epub:type=\"".toList ++ "part".toList ++ '"' :: rest
    ∧ mid ≠ [] ∧ (∀ c ∈ mid, c ≠ '>')
    ∧ (∃ m' cl, mid = m' ++ [cl] ∧ isWordChar cl = false)
    ∧ "part".toList ≠ [] ∧ (∀ c ∈ "part".toList, c ≠ '"') :=
  (level_classification "<section epub:type=\"part\">").2.2.1 "part".toList (by rfl)

/-! ### Claim C3: title extraction -/

theorem titleGroup_eq_some {cs g : List Char} (h : titleGroup cs = some g) :
    ∃ pre post,
      cs = pre ++ "<title>".toList ++ (g ++ "</title>".toList ++ post)
    ∧ (∀ pre' r, cs = pre' ++ "<title>".toList ++ r → pre.length ≤ pre'.length)
    ∧ (∀ g' p', g ++ "</title>".toList ++ post = g' ++ "</title>".toList ++ p' →
        g.length ≤ g'.length) := by
  unfold titleGroup at h
  cases s1 : splitAtSub "<title>".toList cs with
  | none => rw [s1] at h; cases h
  | some p1 =>
    obtain ⟨b, rest⟩ := p1
    rw [s1] at h
    simp only at h
    cases s2 : splitAtSub "</title>".toList rest with
    | none => rw [s2] at h; cases h
    | some p2 =>
      obtain ⟨g0, post0⟩ := p2
      rw [s2] at h
      simp only at h
      obtain rfl : g0 = g := by injection h
      obtain ⟨he1, hm1⟩ := splitAtSub_eq_some s1
      obtain ⟨he2, hm2⟩ := splitAtSub_eq_some s2
      refine ⟨b, post0, ?_, hm1, ?_⟩
      · rw [he1, he2]
      · intro g' p' heq
        exact hm2 g' p' (he2.trans heq)

theorem titleGroup_eq_none {cs : List Char} (h : titleGroup cs = none) :
    ∀ pre g post, cs ≠ pre ++ "<title>".toList ++ g ++ "</title>".toList ++ post := by
  intro pre g post heq
  unfold titleGroup at h
  cases s1 : splitAtSub "<title>".toList cs with
  | none =>
    exact splitAtSub_eq_none s1 pre (g ++ "</title>".toList ++ post)
      (by rw [heq]; simp [List.append_assoc])
  | some p1 =>
    obtain ⟨b, rest⟩ := p1
    rw [s1] at h
    simp only at h
    cases s2 : splitAtSub "</title>".toList rest with
    | some p2 => obtain ⟨g0, post0⟩ := p2; rw [s2] at h; simp only at h; cases h
    | none =>
      obtain ⟨he1, hm1⟩ := splitAtSub_eq_some s1
      have hble : b.length ≤ pre.length :=
        hm1 pre (g ++ "</title>".toList ++ post) (by rw [heq]; simp [List.append_assoc])
      have hrest : rest = cs.drop (b.length + 7) := by
        rw [he1]
        rw [show b ++ "<title>".toList ++ rest = (b ++ "<title>".toList) ++ rest by
          simp [List.append_assoc]]
        rw [List.drop_left' (by simp)]
      have hsub : ∃ x, rest = x ++ "</title>".toList ++ post := by
        refine ⟨(pre ++ "<title>".toList ++ g).drop (b.length + 7), ?_⟩
        rw [hrest, heq]
        rw [show pre ++ "<title>".toList ++ g ++ "</title>".toList ++ post
            = (pre ++ "<title>".toList ++ g) ++ ("</title>".toList ++ post) by
          simp [List.append_assoc]]
        rw [List.drop_append_of_le_length (by simp; omega)]
        simp [List.append_assoc]
      obtain ⟨x, hx⟩ := hsub
      exact splitAtSub_eq_none s2 x post hx

unseal stripTags replaceAll in
/-- Claim C3 (corrected): the extracted title is computed from the first
non-greedy `<title>…</title>` match (across embedded newlines) with
leading/trailing whitespace trimmed from the raw matched span — or
from the record id when no title element is present — and the result
of that first step is then tag-stripped and entity-decoded; the trim
is NOT re-applied to the final result, and the no-title fallback also
passes through tag-stripping and entity decoding.  A file containing
`<title>Flow&rsquo;s <b>End</b></title>` yields the title
"Flow’s End". -/
theorem title_extraction (content chapterId : String) :
    (∀ g, titleGroup content.toList = some g →
      extractTitle content chapterId = String.mk (decodeEntities (stripTags (pyStrip g)))
      ∧ ∃ pre post,
          content.toList = pre ++ "<title>".toList ++ (g ++ "</title>".toList ++ post)
        ∧ (∀ pre' r, content.toList = pre' ++ "<title>".toList ++ r →
            pre.length ≤ pre'.length)
        ∧ (∀ g' p', g ++ "</title>".toList ++ post = g' ++ "</title>".toList ++ p' →
            g.length ≤ g'.length))
  ∧ (titleGroup content.toList = none →
      extractTitle content chapterId
        = String.mk (decodeEntities (stripTags chapterId.toList))
      ∧ ∀ pre g post,
          content.toList ≠ pre ++ "<title>".toList ++ g ++ "</title>".toList ++ post)
  ∧ extractTitle "<title>Flow&rsquo;s <b>End</b></title>" "x" = "Flow’s End" := by
  refine ⟨?_, ?_, by rfl⟩
  · intro g h
    refine ⟨?_, titleGroup_eq_some h⟩
    unfold extractTitle
    rw [h]
  · intro h
    refine ⟨?_, titleGroup_eq_none h⟩
    unfold extractTitle
    rw [h]

theorem title_extraction_witness :
    extractTitle "<title>Flow&rsquo;s <b>End</b></title>" "x"
      = String.mk (decodeEntities (stripTags (pyStrip
          "Flow&rsquo;s <b>End</b>".toList)))
  ∧ ∃ pre post,
      ("<title>Flow&rsquo;s <b>End</b></title>").toList
        = pre ++ "<title>".toList
          ++ ("Flow&rsquo;s <b>End</b>".toList ++ "</title>".toList ++ post) :=
  have h := (title_extraction "<title>Flow&rsquo;s <b>End</b></title>" "x").1
    "Flow&rsquo;s <b>End</b>".toList (by rfl)
  ⟨h.1, h.2.choose, h.2.choose_spec.choose, h.2.choose_spec.choose_spec.1⟩

unseal stripTags replaceAll in
/-- Claim C3 counterexample: the claim as frozen says whitespace is
trimmed from the FINAL result and that the no-title fallback equals
the record id; on the inputs below the code instead yields " X "
(inner whitespace exposed by tag stripping is kept) and "a&b" (the
fallback id is entity-decoded). -/
theorem title_extraction_cex :
    extractTitle "<title><b> X </b></title>" "cid" = " X "
  ∧ (" X " : String) ≠ "X"
  ∧ extractTitle "no title here" "a&amp;b" = "a&b"
  ∧ ("a&b" : String) ≠ "a&amp;b" := by
  refine ⟨by rfl, by decide, by rfl, by decide⟩

/-! ### Claim C7: archive layout -/

theorem fileNames_mem_treePaths {children : List FsTree} {f : String}
    (h : f ∈ fileNames children) (pre : String) :
    joinPath pre f ∈ treePaths pre children := by
  induction children with
  | nil => simp [fileNames] at h
  | cons t rest ih =>
    cases t with
    | file n =>
      rw [fileNames, List.filterMap_cons] at h
      simp only at h
      rcases List.mem_cons.mp h with rfl | h
      · rw [treePaths]; exact List.mem_cons_self _ _
      · rw [treePaths]; exact List.mem_cons_of_mem _ (ih h)
    | dir n cs =>
      rw [fileNames, List.filterMap_cons] at h
      simp only at h
      rw [treePaths]
      exact List.mem_append_right _ (ih h)

theorem dirEntries_sound {pre : String} {children : List FsTree} {e : ZipEntry}
    (h : e ∈ dirEntries pre children) :
    e.compress = Compression.deflated ∧ e.arcname ∈ treePaths pre children := by
  unfold dirEntries at h
  obtain ⟨f, hf, hfe⟩ := List.mem_filterMap.mp h
  have hmem : f ∈ fileNames children := List.mem_mergeSort.mp hf
  by_cases h1 : joinPath pre f = "mimetype"
  · rw [if_pos h1] at hfe; cases hfe
  · rw [if_neg h1] at hfe
    by_cases h2 : ".py".toList.isSuffixOf f.toList || ".epub".toList.isSuffixOf f.toList
        || ".DS_Store".toList.isSuffixOf f.toList
    · rw [if_pos h2] at hfe; cases hfe
    · rw [if_neg h2] at hfe
      obtain rfl : ZipEntry.mk (joinPath pre f) Compression.deflated = e := by
        injection hfe
      exact ⟨rfl, fileNames_mem_treePaths hmem pre⟩

theorem walkSub_sound : ∀ (pre : String) (children : List FsTree), ∀ e ∈ walkSub pre children,
    e.compress = Compression.deflated ∧ e.arcname ∈ treePaths pre children
  | _, [], e, he => by simp [walkSub] at he
  | pre, .file n :: rest, e, he => by
    rw [walkSub] at he
    obtain ⟨h1, h2⟩ := walkSub_sound pre rest e he
    exact ⟨h1, by rw [treePaths]; exact List.mem_cons_of_mem _ h2⟩
  | pre, .dir n cs :: rest, e, he => by
    rw [walkSub] at he
    rw [treePaths]
    rcases List.mem_append.mp he with hin | hin
    · by_cases hk : keepDir n = true
      · rw [if_pos hk] at hin
        rcases List.mem_append.mp hin with hin | hin
        · obtain ⟨h1, h2⟩ := dirEntries_sound hin
          exact ⟨h1, List.mem_append_left _ h2⟩
        · obtain ⟨h1, h2⟩ := walkSub_sound (joinPath pre n) cs e hin
          exact ⟨h1, List.mem_append_left _ h2⟩
      · rw [if_neg hk] at hin
        simp at hin
    · obtain ⟨h1, h2⟩ := walkSub_sound pre rest e hin
      exact ⟨h1, List.mem_append_right _ h2⟩

/-- Claim C7: in the produced archive, the first entry is a file named
exactly "mimetype" stored with no compression, and every other entry
is added with deflate compression under an archive path equal to its
path relative to the working-directory root. -/
theorem archive_layout (tree : List FsTree) :
    (buildArchiveEntries tree).head? = some ⟨"mimetype", Compression.stored⟩
  ∧ ∀ e ∈ (buildArchiveEntries tree).tail,
      e.compress = Compression.deflated ∧ e.arcname ∈ treePaths "" tree := by
  refine ⟨rfl, ?_⟩
  intro e he
  rw [buildArchiveEntries] at he
  simp only [List.tail_cons] at he
  rcases List.mem_append.mp he with hin | hin
  · exact dirEntries_sound hin
  · exact walkSub_sound "" tree e hin

unseal List.mergeSort List.merge in
theorem archive_layout_witness :
    ZipEntry.compress ⟨"a.txt", Compression.deflated⟩ = Compression.deflated
  ∧ ZipEntry.arcname ⟨"a.txt", Compression.deflated⟩ ∈ treePaths "" [FsTree.file "a.txt"] :=
  (archive_layout [FsTree.file "a.txt"]).2 ⟨"a.txt", Compression.deflated⟩ (by decide)

/-! ### Claim C8: discovery errors are fatal and abort before output -/

theorem readLoop_error_of_mem {readFile : String → Except String String}
    {fs : List String} {f : String} (hf : f ∈ fs) {e : String}
    (he : readFile f = .error e) :
    ∃ e', readLoop readFile fs = .error e' := by
  induction fs with
  | nil => cases hf
  | cons g rest ih =>
    rw [readLoop]
    cases hg : readFile g with
    | error eg => exact ⟨eg, rfl⟩
    | ok content =>
      rcases List.mem_cons.mp hf with rfl | hf
      · rw [hg] at he; cases he
      · obtain ⟨e', he'⟩ := ih hf
        rw [he']
        exact ⟨e', rfl⟩

/-- Claim C8: if listing the chapter directory or reading a chapter file
fails, the error propagates and the run aborts before any output:
neither toc.xhtml, nor content.opf, nor the archive is produced, and
no partial chapter list is returned (the discovery result is a single
`Except` value). -/
theorem discovery_error_aborts (listing : Except String (List String))
    (readFile : String → Except String String)
    (writeToc writeOpf : String → Except String Unit)
    (fmt : List String → Except String Unit)
    (package : List ZipEntry → Except String Unit)
    (tree : List FsTree) (now : String) :
    (∀ e, discover_chaptersE listing readFile = .error e →
      build_epubRun listing readFile writeToc writeOpf fmt package tree now
        = (emptyBuild, .error e))
  ∧ (∀ e, listing = .error e → discover_chaptersE listing readFile = .error e)
  ∧ (∀ names f, listing = .ok names → f ∈ names.filter qualifies →
      (∃ e, readFile f = .error e) →
      ∃ e', discover_chaptersE listing readFile = .error e') := by
  refine ⟨?_, ?_, ?_⟩
  · intro e h
    unfold build_epubRun
    rw [h]
  · intro e h
    unfold discover_chaptersE
    rw [h]
  · intro names f hnames hf ⟨e, he⟩
    unfold discover_chaptersE
    rw [hnames]
    exact readLoop_error_of_mem (List.mem_mergeSort.mpr hf) he

theorem discovery_error_aborts_witness :
    build_epubRun (.error "boom") (fun _ => .ok "") (fun _ => .ok ())
      (fun _ => .ok ()) (fun _ => .ok ()) (fun _ => .ok ()) [] ""
      = (emptyBuild, .error "boom") :=
  (discovery_error_aborts (.error "boom") (fun _ => .ok "") (fun _ => .ok ())
    (fun _ => .ok ()) (fun _ => .ok ()) (fun _ => .ok ()) [] "").1 "boom" rfl

/-! ### Claim C9: the formatter is the only non-fatal stage -/

/-- Claim C9: if the external formatter subprocess is absent or fails, the
error is recovered locally: the warning line is logged, the build is
never made fatal by the formatter, and the pipeline continues to the
packaging stage (it still reaches packaging even when the formatter
failed); a formatter success logs no warning; by contrast an error
from either document write or from the packaging step itself (and,
per C8, from discovery) is fatal. -/
theorem formatter_nonfatal (listing : Except String (List String))
    (readFile : String → Except String String)
    (writeToc writeOpf : String → Except String Unit)
    (fmt : List String → Except String Unit)
    (package : List ZipEntry → Except String Unit)
    (tree : List FsTree) (now : String) (chapters : List Chapter)
    (hok : discover_chaptersE listing readFile = .ok chapters) :
    (writeToc (build_toc_xhtml chapters) = .ok () →
     writeOpf (build_content_opf chapters now) = .ok () →
     package (buildArchiveEntries tree) = .ok () →
      (build_epubRun listing readFile writeToc writeOpf fmt package tree now).2 = .ok ()
      ∧ (build_epubRun listing readFile writeToc writeOpf fmt package tree now).1.epub
          = some (buildArchiveEntries tree)
      ∧ (∀ e, fmt (generatedFiles chapters) = .error e →
          (build_epubRun listing readFile writeToc writeOpf fmt package tree now).1.log
            = [formatterWarning])
      ∧ (∀ u, fmt (generatedFiles chapters) = .ok u →
          formatterWarning
            ∉ (build_epubRun listing readFile writeToc writeOpf fmt package tree now).1.log))
  ∧ (writeToc (build_toc_xhtml chapters) = .ok () →
     writeOpf (build_content_opf chapters now) = .ok () →
     ∀ e ef, package (buildArchiveEntries tree) = .error e →
       fmt (generatedFiles chapters) = .error ef →
      (build_epubRun listing readFile writeToc writeOpf fmt package tree now).2 = .error e
      ∧ (build_epubRun listing readFile writeToc writeOpf fmt package tree now).1.epub
          = none
      ∧ (build_epubRun listing readFile writeToc writeOpf fmt package tree now).1.log
          = [formatterWarning])
  ∧ (∀ e, writeToc (build_toc_xhtml chapters) = .error e →
      build_epubRun listing readFile writeToc writeOpf fmt package tree now
        = (emptyBuild, .error e))
  ∧ (∀ e, writeToc (build_toc_xhtml chapters) = .ok ()
        → writeOpf (build_content_opf chapters now) = .error e →
      build_epubRun listing readFile writeToc writeOpf fmt package tree now
        = ({ emptyBuild with toc := some (build_toc_xhtml chapters) }, .error e)) := by
  refine ⟨?_, ?_, ?_, ?_⟩
  · intro htoc hopf hpack
    unfold build_epubRun
    rw [hok]
    simp only
    rw [htoc]
    simp only
    rw [hopf]
    simp only
    rw [hpack]
    simp only
    refine ⟨trivial, trivial, ?_, ?_⟩
    · intro e hf
      rw [hf]
    · intro u hf
      rw [hf]
      have hne : formatterWarning
          ≠ "  Formatted " ++ toString (generatedFiles chapters).length ++ " files" := by
        intro hcontra
        have hdata := congrArg (fun s => s.data[2]?) hcontra
        simp only [String.data_append] at hdata
        have ha : (2 : Nat) < ([' ', ' ', 'F', 'o', 'r', 'm', 'a', 't', 't', 'e', 'd', ' ']
            ++ (toString (generatedFiles chapters).length).data).length := by
          simp only [List.length_append, List.length_cons, List.length_nil]
          omega
        rw [List.getElem?_append_left ha] at hdata
        have hb : (2 : Nat)
            < ([' ', ' ', 'F', 'o', 'r', 'm', 'a', 't', 't', 'e', 'd', ' '] : List Char).length := by
          decide
        rw [List.getElem?_append_left hb] at hdata
        revert hdata
        decide
      simp [hne]
  · intro htoc hopf e ef hpack hfmt
    unfold build_epubRun
    rw [hok]
    simp only
    rw [htoc]
    simp only
    rw [hopf]
    simp only
    rw [hpack]
    simp only
    rw [hfmt]
    exact ⟨trivial, trivial, rfl⟩
  · intro e htoc
    unfold build_epubRun
    rw [hok]
    simp only
    rw [htoc]
  · intro e htoc hopf
    unfold build_epubRun
    rw [hok]
    simp only
    rw [htoc]
    simp only
    rw [hopf]

theorem formatter_nonfatal_witness :
    (build_epubRun (.ok []) (fun _ => .ok "") (fun _ => .ok ())
      (fun _ => .ok ()) (fun _ => .error "no prettier") (fun _ => .ok ()) [] "").2
      = .ok ()
  ∧ (build_epubRun (.ok []) (fun _ => .ok "") (fun _ => .ok ())
      (fun _ => .ok ()) (fun _ => .error "no prettier") (fun _ => .ok ()) [] "").1.log
      = [formatterWarning] :=
  have h := (formatter_nonfatal (.ok []) (fun _ => .ok "") (fun _ => .ok ())
    (fun _ => .ok ()) (fun _ => .error "no prettier") (fun _ => .ok ()) [] "" []
    (by simp [discover_chaptersE, readLoop])).1 rfl rfl rfl
  ⟨h.1, h.2.2.1 "no prettier" rfl⟩

/-! ### Claim C1: dict lemmas -/

theorem dictInsert_of_not_mem {ps : List (String × PartNode)} {k : String} {v : PartNode}
    (h : k ∉ ps.map Prod.fst) : dictInsert ps k v = ps ++ [(k, v)] := by
  induction ps with
  | nil => rfl
  | cons p rest ih =>
    obtain ⟨k', v'⟩ := p
    simp only [List.map_cons, List.mem_cons, not_or] at h
    rw [dictInsert, if_neg (fun hh => h.1 hh.symm), ih h.2, List.cons_append]

theorem dictAppendChild_middle {l r : List (String × PartNode)} {k : String}
    {v : PartNode} {e : Entry} (h : k ∉ l.map Prod.fst) :
    dictAppendChild (l ++ (k, v) :: r) k e
      = l ++ (k, { v with children := v.children ++ [e] }) :: r := by
  induction l with
  | nil => simp [dictAppendChild]
  | cons p rest ih =>
    obtain ⟨k', v'⟩ := p
    simp only [List.map_cons, List.mem_cons, not_or] at h
    rw [List.cons_append, dictAppendChild, if_neg (fun hh => h.1 hh.symm), ih h.2,
      List.cons_append]

theorem dictFind_split {ps : List (String × PartNode)} {k : String} {n : PartNode}
    (h : dictFind ps k = some n) :
    ∃ l r, ps = l ++ (k, n) :: r ∧ k ∉ l.map Prod.fst := by
  induction ps with
  | nil => cases h
  | cons p rest ih =>
    obtain ⟨k', v'⟩ := p
    by_cases hk : k' = k
    · subst hk
      rw [dictFind, if_pos rfl] at h
      obtain rfl : v' = n := by injection h
      exact ⟨[], rest, rfl, by simp⟩
    · rw [dictFind, if_neg hk] at h
      obtain ⟨l, r, heq, hmem⟩ := ih h
      refine ⟨(k', v') :: l, r, by rw [heq, List.cons_append], ?_⟩
      simp only [List.map_cons, List.mem_cons, not_or]
      exact ⟨fun hh => hk hh.symm, hmem⟩

theorem dictFind_middle_ne {l r : List (String × PartNode)} {k q : String}
    {n : PartNode} (hne : q ≠ k) :
    dictFind (l ++ (k, n) :: r) q = dictFind (l ++ r) q := by
  induction l with
  | nil =>
    simp only [List.nil_append]
    rw [dictFind, if_neg (fun hh => hne hh.symm)]
  | cons p rest ih =>
    obtain ⟨k', v'⟩ := p
    by_cases hk : k' = q
    · rw [List.cons_append, dictFind, if_pos hk, List.cons_append, dictFind, if_pos hk]
    · rw [List.cons_append, dictFind, if_neg hk, List.cons_append, dictFind, if_neg hk, ih]

theorem dictFind_isSome_iff {ps : List (String × PartNode)} {k : String} :
    (dictFind ps k).isSome = true ↔ k ∈ ps.map Prod.fst := by
  induction ps with
  | nil => simp [dictFind]
  | cons p rest ih =>
    obtain ⟨k', v'⟩ := p
    by_cases hk : k' = k
    · subst hk; simp [dictFind]
    · rw [dictFind, if_neg hk]
      simp only [List.map_cons, List.mem_cons, ih]
      constructor
      · intro h; exact Or.inr h
      · rintro (rfl | h)
        · exact absurd rfl hk
        · exact h

/-! ### Claim C1: fold characterization of the partition loop -/

theorem foldl_tocStep_part (cs : List Chapter) :
    ∀ (f0 : List Entry) (l : List (String × PartNode)) (k : String) (v : PartNode),
      ((cs.filter fun c => c.level == 2).map Chapter.id).Nodup →
      (∀ i ∈ (cs.filter fun c => c.level == 2).map Chapter.id,
        i ∉ l.map Prod.fst ++ [k]) →
      k ∉ l.map Prod.fst →
      (List.foldl tocStep ⟨f0, l ++ [(k, v)], some k⟩ cs).front = f0
      ∧ (List.foldl tocStep ⟨f0, l ++ [(k, v)], some k⟩ cs).parts
        = l ++ (k, { v with children :=
            v.children ++ ((cs.takeWhile fun x => !(x.level == 2)).map entryOf) })
          :: partsOf cs := by
  induction cs with
  | nil =>
    intro f0 l k v _ _ _
    refine ⟨rfl, ?_⟩
    simp [partsOf]
  | cons c cs ih =>
    intro f0 l k v h1 h2 h3
    rw [List.foldl_cons]
    by_cases hl : c.level == 2
    · have hfc : (c :: cs).filter (fun c => c.level == 2) = c :: cs.filter fun c => c.level == 2 :=
        List.filter_cons_of_pos hl
      rw [hfc, List.map_cons] at h1 h2
      have hcid : c.id ∉ l.map Prod.fst ++ [k] := h2 c.id (List.mem_cons_self _ _)
      have hstep : tocStep ⟨f0, l ++ [(k, v)], some k⟩ c
          = ⟨f0, (l ++ [(k, v)]) ++ [(c.id, ⟨c.title, "Text/" ++ c.filename, []⟩)],
             some c.id⟩ := by
        rw [tocStep, if_pos hl]
        have : dictInsert (l ++ [(k, v)]) c.id ⟨c.title, "Text/" ++ c.filename, []⟩
            = (l ++ [(k, v)]) ++ [(c.id, ⟨c.title, "Text/" ++ c.filename, []⟩)] := by
          apply dictInsert_of_not_mem
          simpa using hcid
        rw [this]
      rw [hstep]
      obtain ⟨hfr, hpa⟩ := ih f0 (l ++ [(k, v)]) c.id ⟨c.title, "Text/" ++ c.filename, []⟩
        (List.nodup_cons.mp h1).2
        (by
          intro i hi
          have hne : i ≠ c.id := by
            intro hh
            exact (List.nodup_cons.mp h1).1 (hh ▸ hi)
          have hnk : i ∉ l.map Prod.fst ++ [k] := h2 i (List.mem_cons_of_mem _ hi)
          simp only [List.map_append, List.map_cons, List.map_nil, List.mem_append,
            List.mem_cons, List.not_mem_nil, not_or] at hnk ⊢
          tauto)
        (by simpa using hcid)
      refine ⟨hfr, ?_⟩
      rw [hpa]
      rw [show (c :: cs).takeWhile (fun x => !(x.level == 2)) = [] from
        List.takeWhile_cons_of_neg (by simp [hl])]
      rw [show partsOf (c :: cs)
          = (c.id, ⟨c.title, "Text/" ++ c.filename,
              ((cs.takeWhile fun x => !(x.level == 2)).map entryOf)⟩) :: partsOf cs from by
        rw [partsOf, if_pos hl]]
      simp [List.append_assoc]
    · have hfc : (c :: cs).filter (fun c => c.level == 2) = cs.filter fun c => c.level == 2 :=
        List.filter_cons_of_neg hl
      rw [hfc] at h1 h2
      have hstep : tocStep ⟨f0, l ++ [(k, v)], some k⟩ c
          = ⟨f0, l ++ [(k, { v with children := v.children ++ [entryOf c] })], some k⟩ := by
        rw [tocStep, if_neg hl]
        simp only
        rw [show l ++ [(k, v)] = l ++ (k, v) :: [] from rfl, dictAppendChild_middle h3]
      rw [hstep]
      obtain ⟨hfr, hpa⟩ := ih f0 l k { v with children := v.children ++ [entryOf c] } h1 h2 h3
      refine ⟨hfr, ?_⟩
      rw [hpa]
      rw [show (c :: cs).takeWhile (fun x => !(x.level == 2))
          = c :: cs.takeWhile fun x => !(x.level == 2) from
        List.takeWhile_cons_of_pos (by simp [hl])]
      rw [show partsOf (c :: cs) = partsOf cs from by rw [partsOf, if_neg hl]]
      simp [List.append_assoc]

theorem foldl_tocStep_front (cs : List Chapter) :
    ∀ f0 : List Entry,
      ((cs.filter fun c => c.level == 2).map Chapter.id).Nodup →
      (List.foldl tocStep ⟨f0, [], none⟩ cs).front
        = f0 ++ (cs.takeWhile fun x => !(x.level == 2)).map entryOf
      ∧ (List.foldl tocStep ⟨f0, [], none⟩ cs).parts = partsOf cs := by
  induction cs with
  | nil =>
    intro f0 _
    exact ⟨by simp, rfl⟩
  | cons c cs ih =>
    intro f0 h1
    rw [List.foldl_cons]
    by_cases hl : c.level == 2
    · have hfc : (c :: cs).filter (fun c => c.level == 2) = c :: cs.filter fun c => c.level == 2 :=
        List.filter_cons_of_pos hl
      rw [hfc, List.map_cons] at h1
      have hstep : tocStep ⟨f0, [], none⟩ c
          = ⟨f0, [] ++ [(c.id, ⟨c.title, "Text/" ++ c.filename, []⟩)], some c.id⟩ := by
        rw [tocStep, if_pos hl]
        rfl
      rw [hstep]
      obtain ⟨hfr, hpa⟩ := foldl_tocStep_part cs f0 [] c.id
        ⟨c.title, "Text/" ++ c.filename, []⟩
        (List.nodup_cons.mp h1).2
        (by
          intro i hi
          have hne : i ≠ c.id := by
            intro hh
            exact (List.nodup_cons.mp h1).1 (hh ▸ hi)
          simpa using hne)
        (by simp)
      refine ⟨?_, ?_⟩
      · rw [hfr]
        rw [show (c :: cs).takeWhile (fun x => !(x.level == 2)) = [] from
          List.takeWhile_cons_of_neg (by simp [hl])]
        simp
      · rw [hpa]
        rw [show partsOf (c :: cs)
            = (c.id, ⟨c.title, "Text/" ++ c.filename,
                ((cs.takeWhile fun x => !(x.level == 2)).map entryOf)⟩) :: partsOf cs from by
          rw [partsOf, if_pos hl]]
        simp
    · have hfc : (c :: cs).filter (fun c => c.level == 2) = cs.filter fun c => c.level == 2 :=
        List.filter_cons_of_neg hl
      rw [hfc] at h1
      have hstep : tocStep ⟨f0, [], none⟩ c = ⟨f0 ++ [entryOf c], [], none⟩ := by
        rw [tocStep, if_neg hl]
      rw [hstep]
      obtain ⟨hfr, hpa⟩ := ih (f0 ++ [entryOf c]) h1
      refine ⟨?_, by rw [hpa, show partsOf (c :: cs) = partsOf cs from by rw [partsOf, if_neg hl]]⟩
      rw [hfr]
      rw [show (c :: cs).takeWhile (fun x => !(x.level == 2))
          = c :: cs.takeWhile fun x => !(x.level == 2) from
        List.takeWhile_cons_of_pos (by simp [hl])]
      simp [List.append_assoc]

theorem tocScan_eq (chapters : List Chapter)
    (h1 : ((chapters.filter fun c => c.level == 2).map Chapter.id).Nodup) :
    (tocScan chapters).front
      = (chapters.takeWhile fun x => !(x.level == 2)).map entryOf
    ∧ (tocScan chapters).parts = partsOf chapters := by
  have h := foldl_tocStep_front chapters [] h1
  exact ⟨by simpa using h.1, h.2⟩

/-! ### Claim C1: partsOf projections -/

theorem partsOf_keys (cs : List Chapter) :
    (partsOf cs).map Prod.fst = (cs.filter fun c => c.level == 2).map Chapter.id := by
  induction cs with
  | nil => rfl
  | cons c cs ih =>
    by_cases hl : c.level == 2
    · have hfc : (c :: cs).filter (fun c => c.level == 2)
          = c :: cs.filter fun c => c.level == 2 := List.filter_cons_of_pos hl
      rw [partsOf, if_pos hl, hfc, List.map_cons, List.map_cons, ih]
    · have hfc : (c :: cs).filter (fun c => c.level == 2)
          = cs.filter fun c => c.level == 2 := List.filter_cons_of_neg hl
      rw [partsOf, if_neg hl, hfc, ih]

theorem partsOf_linkEntries (cs : List Chapter) :
    (partsOf cs).map (fun p => Entry.mk p.2.title p.2.href)
      = (cs.filter fun c => c.level == 2).map entryOf := by
  induction cs with
  | nil => rfl
  | cons c cs ih =>
    by_cases hl : c.level == 2
    · have hfc : (c :: cs).filter (fun c => c.level == 2)
          = c :: cs.filter fun c => c.level == 2 := List.filter_cons_of_pos hl
      rw [partsOf, if_pos hl, hfc, List.map_cons, List.map_cons, ih]
      rfl
    · have hfc : (c :: cs).filter (fun c => c.level == 2)
          = cs.filter fun c => c.level == 2 := List.filter_cons_of_neg hl
      rw [partsOf, if_neg hl, hfc, ih]

theorem filter_takeWhile_self (p : Chapter → Bool) (l : List Chapter) :
    (l.takeWhile p).filter p = l.takeWhile p :=
  List.filter_eq_self.mpr fun _ hx => List.mem_takeWhile_imp hx

theorem filter_eq_takeWhile_append (p : Chapter → Bool) (l : List Chapter) :
    l.filter p = l.takeWhile p ++ (l.dropWhile p).filter p := by
  conv_lhs => rw [← List.takeWhile_append_dropWhile (p := p) (l := l)]
  rw [List.filter_append, filter_takeWhile_self]

theorem partsOf_children (cs : List Chapter) :
    (partsOf cs).flatMap (fun p => p.2.children)
      = ((cs.dropWhile fun x => !(x.level == 2)).filter fun x => !(x.level == 2)).map
          entryOf := by
  induction cs with
  | nil => rfl
  | cons c cs ih =>
    by_cases hl : c.level == 2
    · have hdw : (c :: cs).dropWhile (fun x => !(x.level == 2))
          = c :: cs := List.dropWhile_cons_of_neg (by simp [hl])
      have hfc : (c :: cs).filter (fun x => !(x.level == 2))
          = cs.filter fun x => !(x.level == 2) := List.filter_cons_of_neg (by simp [hl])
      rw [partsOf, if_pos hl, List.flatMap_cons, ih, hdw, hfc]
      rw [filter_eq_takeWhile_append (fun x => !(x.level == 2)) cs, List.map_append]
    · have hdw : (c :: cs).dropWhile (fun x => !(x.level == 2))
          = cs.dropWhile fun x => !(x.level == 2) := List.dropWhile_cons_of_pos (by simp [hl])
      rw [partsOf, if_neg hl, ih, hdw]

/-! ### Claim C1: link extraction from rendered lines -/

theorem partLinks_append (a b : List TocLine) :
    partLinks (a ++ b) = partLinks a ++ partLinks b :=
  List.filterMap_append _ _ _

theorem chapterLinks_append (a b : List TocLine) :
    chapterLinks (a ++ b) = chapterLinks a ++ chapterLinks b :=
  List.filterMap_append _ _ _

theorem frontLinks_append (a b : List TocLine) :
    frontLinks (a ++ b) = frontLinks a ++ frontLinks b :=
  List.filterMap_append _ _ _

theorem partLinks_renderPartLines (p : PartNode) :
    partLinks (renderPartLines p) = [⟨p.title, p.href⟩] := by
  unfold renderPartLines partLinks
  by_cases hc : p.children.isEmpty <;>
    simp [hc, List.filterMap_cons, List.filterMap_append, List.filterMap_map, partLink?,
      Function.comp]

theorem chapterLinks_renderPartLines (p : PartNode) :
    chapterLinks (renderPartLines p) = p.children := by
  unfold renderPartLines chapterLinks
  by_cases hc : p.children.isEmpty
  · rw [List.isEmpty_iff.mp hc]
    simp [List.filterMap_cons, chapterLink?]
  · simp only [hc, Bool.false_eq_true, if_neg, ite_false]
    rw [show ([TocLine.partOpen, TocLine.partLink p.title p.href]
        ++ (TocLine.chOlOpen :: p.children.map (fun c => TocLine.chapterLink c.title c.href)
            ++ [TocLine.chOlClose])
        ++ [TocLine.partClose]).filterMap chapterLink?
      = (p.children.map fun c => TocLine.chapterLink c.title c.href).filterMap chapterLink?
      from by
        simp [List.filterMap_cons, List.filterMap_append, chapterLink?]]
    rw [List.filterMap_map]
    rw [List.filterMap_congr
      (show ∀ x ∈ p.children,
        (chapterLink? ∘ fun c : Entry => TocLine.chapterLink c.title c.href) x = some x
        from fun x _ => rfl)]
    exact List.filterMap_some _

theorem frontLinks_renderPartLines (p : PartNode) :
    frontLinks (renderPartLines p) = [] := by
  unfold renderPartLines frontLinks
  by_cases hc : p.children.isEmpty <;>
    simp [hc, List.filterMap_cons, List.filterMap_append, List.filterMap_map, frontLink?,
      Function.comp]

theorem partLinks_sectionLines (parts : List (String × PartNode))
    (sec : String × List String) :
    partLinks (sectionLines parts sec)
      = (sec.2.filterMap (dictFind parts)).map fun p => Entry.mk p.title p.href := by
  unfold sectionLines
  rw [show ([TocLine.sectionHeading sec.1, TocLine.olOpen "toc-parts"]
      ++ (sec.2.filterMap (dictFind parts)).flatMap renderPartLines
      ++ [TocLine.olClose]) = [TocLine.sectionHeading sec.1, TocLine.olOpen "toc-parts"]
      ++ ((sec.2.filterMap (dictFind parts)).flatMap renderPartLines
          ++ [TocLine.olClose]) from by simp [List.append_assoc]]
  rw [partLinks_append, partLinks_append]
  rw [show partLinks [TocLine.sectionHeading sec.1, TocLine.olOpen "toc-parts"] = [] from rfl]
  rw [show partLinks [TocLine.olClose] = [] from rfl]
  rw [show partLinks ((sec.2.filterMap (dictFind parts)).flatMap renderPartLines)
      = (sec.2.filterMap (dictFind parts)).flatMap (fun p => partLinks (renderPartLines p))
      from List.filterMap_flatMap _ _ _]
  simp only [partLinks_renderPartLines]
  rw [← List.map_eq_flatMap]
  simp

theorem chapterLinks_sectionLines (parts : List (String × PartNode))
    (sec : String × List String) :
    chapterLinks (sectionLines parts sec)
      = (sec.2.filterMap (dictFind parts)).flatMap fun p => p.children := by
  unfold sectionLines
  rw [show ([TocLine.sectionHeading sec.1, TocLine.olOpen "toc-parts"]
      ++ (sec.2.filterMap (dictFind parts)).flatMap renderPartLines
      ++ [TocLine.olClose]) = [TocLine.sectionHeading sec.1, TocLine.olOpen "toc-parts"]
      ++ ((sec.2.filterMap (dictFind parts)).flatMap renderPartLines
          ++ [TocLine.olClose]) from by simp [List.append_assoc]]
  rw [chapterLinks_append, chapterLinks_append]
  rw [show chapterLinks [TocLine.sectionHeading sec.1, TocLine.olOpen "toc-parts"] = []
    from rfl]
  rw [show chapterLinks [TocLine.olClose] = [] from rfl]
  rw [show chapterLinks ((sec.2.filterMap (dictFind parts)).flatMap renderPartLines)
      = (sec.2.filterMap (dictFind parts)).flatMap (fun p => chapterLinks (renderPartLines p))
      from List.filterMap_flatMap _ _ _]
  simp [chapterLinks_renderPartLines]

theorem frontLinks_sectionLines (parts : List (String × PartNode))
    (sec : String × List String) :
    frontLinks (sectionLines parts sec) = [] := by
  unfold sectionLines
  rw [show ([TocLine.sectionHeading sec.1, TocLine.olOpen "toc-parts"]
      ++ (sec.2.filterMap (dictFind parts)).flatMap renderPartLines
      ++ [TocLine.olClose]) = [TocLine.sectionHeading sec.1, TocLine.olOpen "toc-parts"]
      ++ ((sec.2.filterMap (dictFind parts)).flatMap renderPartLines
          ++ [TocLine.olClose]) from by simp [List.append_assoc]]
  rw [frontLinks_append, frontLinks_append]
  rw [show frontLinks [TocLine.sectionHeading sec.1, TocLine.olOpen "toc-parts"] = [] from rfl]
  rw [show frontLinks [TocLine.olClose] = [] from rfl]
  rw [show frontLinks ((sec.2.filterMap (dictFind parts)).flatMap renderPartLines)
      = (sec.2.filterMap (dictFind parts)).flatMap (fun p => frontLinks (renderPartLines p))
      from List.filterMap_flatMap _ _ _]
  simp [frontLinks_renderPartLines]

/-! ### Claim C1: the rendered parts are a permutation of the dict values -/

theorem rendered_parts_perm :
    ∀ (P : List String) (parts : List (String × PartNode)),
      P.Nodup → (parts.map Prod.fst).Nodup →
      (P.filterMap (dictFind parts)
        ++ (parts.filter fun p => !(decide (p.1 ∈ P))).map Prod.snd).Perm
        (parts.map Prod.snd) := by
  intro P
  induction P with
  | nil =>
    intro parts _ _
    simp only [List.filterMap_nil, List.nil_append]
    rw [show (parts.filter fun p => !(decide (p.1 ∈ ([] : List String)))) = parts from by
      apply List.filter_eq_self.mpr
      intro p _
      simp]
  | cons pid P ih =>
    intro parts hP hK
    rw [List.filterMap_cons]
    cases hf : dictFind parts pid with
    | none =>
      have hpid : pid ∉ parts.map Prod.fst := by
        intro hmem
        have := dictFind_isSome_iff.mpr hmem
        rw [hf] at this
        cases this
      have hfilter : (parts.filter fun p => !(decide (p.1 ∈ pid :: P)))
          = parts.filter fun p => !(decide (p.1 ∈ P)) := by
        apply List.filter_congr
        intro p hp
        have hpne : p.1 ≠ pid := by
          intro hh
          exact hpid (hh ▸ List.mem_map_of_mem Prod.fst hp)
        simp [List.mem_cons, hpne]
      rw [hfilter]
      exact ih parts (List.nodup_cons.mp hP).2 hK
    | some n =>
      obtain ⟨l, r, rfl, hl⟩ := dictFind_split hf
      have hpid_r : pid ∉ r.map Prod.fst := by
        have hh := hK
        rw [List.map_append, List.map_cons] at hh
        exact (List.nodup_cons.mp (List.nodup_append.mp hh).2.1).1
      have hK' : ((l ++ r).map Prod.fst).Nodup := by
        have hsub : List.Sublist ((l ++ r).map Prod.fst)
            ((l ++ (pid, n) :: r).map Prod.fst) := by
          rw [List.map_append, List.map_append, List.map_cons]
          exact List.Sublist.append_left (List.sublist_cons_self _ _) _
        exact List.Nodup.sublist hsub hK
      have hfm : P.filterMap (dictFind (l ++ (pid, n) :: r))
          = P.filterMap (dictFind (l ++ r)) := by
        apply List.filterMap_congr
        intro q hq
        have hqne : q ≠ pid := by
          intro hh
          exact (List.nodup_cons.mp hP).1 (hh ▸ hq)
        exact dictFind_middle_ne hqne
      have hfilter : ((l ++ (pid, n) :: r).filter fun p => !(decide (p.1 ∈ pid :: P)))
          = (l ++ r).filter fun p => !(decide (p.1 ∈ P)) := by
        rw [List.filter_append, List.filter_append, List.filter_cons]
        rw [if_neg (by simp)]
        have hcongr : ∀ (xs : List (String × PartNode)), pid ∉ xs.map Prod.fst →
            (xs.filter fun p => !(decide (p.1 ∈ pid :: P)))
              = xs.filter fun p => !(decide (p.1 ∈ P)) := by
          intro xs hxs
          apply List.filter_congr
          intro p hp
          have hpne : p.1 ≠ pid := by
            intro hh
            exact hxs (hh ▸ List.mem_map_of_mem Prod.fst hp)
          simp [List.mem_cons, hpne]
        rw [hcongr l hl, hcongr r hpid_r]
      rw [hfm, hfilter]
      have hperm := ih (l ++ r) (List.nodup_cons.mp hP).2 hK'
      refine (hperm.cons n).trans ?_
      rw [List.map_append, List.map_append, List.map_cons]
      exact List.perm_middle.symm

/-! ### Claim C1: block-level extraction -/

theorem frontLinks_frontBlock (front : List Entry) :
    frontLinks (TocLine.olOpen "toc-front-matter"
      :: front.map (fun e => TocLine.frontLink e.title e.href) ++ [TocLine.olClose])
      = front := by
  unfold frontLinks
  rw [List.filterMap_append, List.filterMap_cons]
  simp only [frontLink?]
  rw [List.filterMap_map]
  rw [List.filterMap_congr
    (show ∀ x ∈ front,
      (frontLink? ∘ fun e : Entry => TocLine.frontLink e.title e.href) x = some x
      from fun x _ => rfl)]
  rw [List.filterMap_some]
  simp [frontLink?]

theorem partLinks_frontBlock (front : List Entry) :
    partLinks (TocLine.olOpen "toc-front-matter"
      :: front.map (fun e => TocLine.frontLink e.title e.href) ++ [TocLine.olClose])
      = [] := by
  unfold partLinks
  rw [List.filterMap_append, List.filterMap_cons]
  simp [partLink?, List.filterMap_map, Function.comp]

theorem chapterLinks_frontBlock (front : List Entry) :
    chapterLinks (TocLine.olOpen "toc-front-matter"
      :: front.map (fun e => TocLine.frontLink e.title e.href) ++ [TocLine.olClose])
      = [] := by
  unfold chapterLinks
  rw [List.filterMap_append, List.filterMap_cons]
  simp [chapterLink?, List.filterMap_map, Function.comp]

theorem frontLinks_sections (parts : List (String × PartNode))
    (sections : List (String × List String)) :
    frontLinks (sections.flatMap (sectionLines parts)) = [] := by
  rw [show frontLinks (sections.flatMap (sectionLines parts))
      = sections.flatMap (fun sec => frontLinks (sectionLines parts sec))
      from List.filterMap_flatMap _ _ _]
  simp [frontLinks_sectionLines]

theorem partLinks_sections (parts : List (String × PartNode))
    (sections : List (String × List String)) :
    partLinks (sections.flatMap (sectionLines parts))
      = ((sections.flatMap Prod.snd).filterMap (dictFind parts)).map
          fun p => Entry.mk p.title p.href := by
  rw [show partLinks (sections.flatMap (sectionLines parts))
      = sections.flatMap (fun sec => partLinks (sectionLines parts sec))
      from List.filterMap_flatMap _ _ _]
  simp only [partLinks_sectionLines]
  rw [← List.map_flatMap]
  rw [show sections.flatMap (fun sec => sec.2.filterMap (dictFind parts))
      = (sections.flatMap Prod.snd).filterMap (dictFind parts)
      from (List.filterMap_flatMap _ _ _).symm]

theorem chapterLinks_sections (parts : List (String × PartNode))
    (sections : List (String × List String)) :
    chapterLinks (sections.flatMap (sectionLines parts))
      = ((sections.flatMap Prod.snd).filterMap (dictFind parts)).flatMap
          fun p => p.children := by
  rw [show chapterLinks (sections.flatMap (sectionLines parts))
      = sections.flatMap (fun sec => chapterLinks (sectionLines parts sec))
      from List.filterMap_flatMap _ _ _]
  simp only [chapterLinks_sectionLines]
  rw [show (sections.flatMap Prod.snd).filterMap (dictFind parts)
      = sections.flatMap (fun sec => sec.2.filterMap (dictFind parts))
      from List.filterMap_flatMap _ _ _]
  exact (List.flatMap_assoc ..).symm

theorem frontLinks_orphanBlock (orphans : List (String × PartNode)) :
    frontLinks (if orphans.isEmpty then []
      else TocLine.olOpen "toc-parts"
        :: orphans.flatMap (fun p => renderPartLines p.2) ++ [TocLine.olClose]) = [] := by
  by_cases hc : orphans.isEmpty
  · rw [if_pos hc]; rfl
  · rw [if_neg hc]
    unfold frontLinks
    rw [List.filterMap_append, List.filterMap_cons]
    simp only [frontLink?]
    rw [show List.filterMap frontLink? (orphans.flatMap fun p => renderPartLines p.2)
        = orphans.flatMap (fun p => frontLinks (renderPartLines p.2))
        from List.filterMap_flatMap _ _ _]
    simp [frontLinks_renderPartLines, frontLink?]

theorem partLinks_orphanBlock (orphans : List (String × PartNode)) :
    partLinks (if orphans.isEmpty then []
      else TocLine.olOpen "toc-parts"
        :: orphans.flatMap (fun p => renderPartLines p.2) ++ [TocLine.olClose])
      = orphans.map fun p => Entry.mk p.2.title p.2.href := by
  by_cases hc : orphans.isEmpty
  · rw [if_pos hc, List.isEmpty_iff.mp hc]; rfl
  · rw [if_neg hc]
    unfold partLinks
    rw [List.filterMap_append, List.filterMap_cons]
    simp only [partLink?]
    rw [show List.filterMap partLink? (orphans.flatMap fun p => renderPartLines p.2)
        = orphans.flatMap (fun p => partLinks (renderPartLines p.2))
        from List.filterMap_flatMap _ _ _]
    simp only [partLinks_renderPartLines]
    rw [← List.map_eq_flatMap]
    simp [partLink?]

theorem chapterLinks_orphanBlock (orphans : List (String × PartNode)) :
    chapterLinks (if orphans.isEmpty then []
      else TocLine.olOpen "toc-parts"
        :: orphans.flatMap (fun p => renderPartLines p.2) ++ [TocLine.olClose])
      = orphans.flatMap fun p => p.2.children := by
  by_cases hc : orphans.isEmpty
  · rw [if_pos hc, List.isEmpty_iff.mp hc]; rfl
  · rw [if_neg hc]
    unfold chapterLinks
    rw [List.filterMap_append, List.filterMap_cons]
    simp only [chapterLink?]
    rw [show List.filterMap chapterLink? (orphans.flatMap fun p => renderPartLines p.2)
        = orphans.flatMap (fun p => chapterLinks (renderPartLines p.2))
        from List.filterMap_flatMap _ _ _]
    simp [chapterLinks_renderPartLines, chapterLink?]

theorem contains_iff_memS {l : List String} {a : String} :
    l.contains a = true ↔ a ∈ l :=
  List.elem_iff

/-- Claim C1 (corrected): for every chapter list whose level-2 record ids
are duplicate-free and every major-section configuration that lists
each part id at most once, the navigation body rendered by
`build_toc_xhtml` contains: each level-3 record preceding the first
level-2 record as exactly one front-matter link, in scan order; each
level-2 record as exactly one part link (as multisets); each remaining
level-3 record as exactly one child link (as multisets); every link
being `entryOf` the record, i.e. pointing at `Text/<filename>`; and the
derived part tree groups each level-3 record under the most recent
preceding level-2 record (`partsOf`). -/
theorem toc_navigation (chapters : List Chapter) (sections : List (String × List String))
    (hids : ((chapters.filter fun c => c.level == 2).map Chapter.id).Nodup)
    (hcfg : (sections.flatMap Prod.snd).Nodup) :
    frontLinks (tocLines chapters sections)
      = (chapters.takeWhile fun c => !(c.level == 2)).map entryOf
  ∧ (partLinks (tocLines chapters sections)).Perm
      ((chapters.filter fun c => c.level == 2).map entryOf)
  ∧ (chapterLinks (tocLines chapters sections)).Perm
      (((chapters.dropWhile fun c => !(c.level == 2)).filter
          fun c => !(c.level == 2)).map entryOf)
  ∧ (tocScan chapters).parts = partsOf chapters := by
  obtain ⟨hfront, hparts⟩ := tocScan_eq chapters hids
  have hkeys : (((tocScan chapters).parts).map Prod.fst).Nodup := by
    rw [hparts, partsOf_keys]; exact hids
  have hTL : tocLines chapters sections
      = (TocLine.olOpen "toc-front-matter"
          :: (tocScan chapters).front.map (fun e => TocLine.frontLink e.title e.href)
          ++ [TocLine.olClose])
        ++ sections.flatMap (sectionLines (tocScan chapters).parts)
        ++ (if ((tocScan chapters).parts.filter fun p =>
                !((sections.flatMap (sectionUsedIds (tocScan chapters).parts)).contains
                  p.1)).isEmpty
            then []
            else TocLine.olOpen "toc-parts"
              :: ((tocScan chapters).parts.filter fun p =>
                  !((sections.flatMap (sectionUsedIds (tocScan chapters).parts)).contains
                    p.1)).flatMap (fun p => renderPartLines p.2)
              ++ [TocLine.olClose]) := rfl
  have horph : ((tocScan chapters).parts.filter fun p =>
        !((sections.flatMap (sectionUsedIds (tocScan chapters).parts)).contains p.1))
      = (tocScan chapters).parts.filter fun p =>
          !(decide (p.1 ∈ sections.flatMap Prod.snd)) := by
    apply List.filter_congr
    intro p hp
    have husedP : sections.flatMap (sectionUsedIds (tocScan chapters).parts)
        = (sections.flatMap Prod.snd).filter
            (fun pid => (dictFind (tocScan chapters).parts pid).isSome) :=
      (List.filter_flatMap sections Prod.snd _).symm
    rw [husedP]
    have hkey : (dictFind (tocScan chapters).parts p.1).isSome = true :=
      dictFind_isSome_iff.mpr (List.mem_map_of_mem Prod.fst hp)
    by_cases hmem : p.1 ∈ sections.flatMap Prod.snd
    · have hA : ((sections.flatMap Prod.snd).filter
          (fun pid => (dictFind (tocScan chapters).parts pid).isSome)).contains p.1
            = true :=
        contains_iff_memS.mpr (List.mem_filter.mpr ⟨hmem, hkey⟩)
      rw [hA, decide_eq_true hmem]
    · have hA : ((sections.flatMap Prod.snd).filter
          (fun pid => (dictFind (tocScan chapters).parts pid).isSome)).contains p.1
            = false := by
        rw [Bool.eq_false_iff]
        intro hco
        exact hmem (List.mem_filter.mp (contains_iff_memS.mp hco)).1
      rw [hA, decide_eq_false hmem]
  refine ⟨?_, ?_, ?_, hparts⟩
  · rw [hTL, frontLinks_append, frontLinks_append, frontLinks_frontBlock,
      frontLinks_sections, frontLinks_orphanBlock, hfront]
    simp
  · have hPL : partLinks (tocLines chapters sections)
        = ((sections.flatMap Prod.snd).filterMap (dictFind (tocScan chapters).parts)
            ++ ((tocScan chapters).parts.filter fun p =>
                !(decide (p.1 ∈ sections.flatMap Prod.snd))).map Prod.snd).map
            (fun p => Entry.mk p.title p.href) := by
      rw [hTL, partLinks_append, partLinks_append, partLinks_frontBlock, partLinks_sections,
        horph, partLinks_orphanBlock]
      rw [List.map_append, List.map_map]
      rfl
    rw [hPL]
    refine (List.Perm.map _ (rendered_parts_perm _ _ hcfg hkeys)).trans ?_
    have heq : (((tocScan chapters).parts.map Prod.snd).map
          fun p => Entry.mk p.title p.href)
        = (chapters.filter fun c => c.level == 2).map entryOf := by
      rw [hparts, List.map_map]
      exact partsOf_linkEntries chapters
    rw [heq]
  · have hCL : chapterLinks (tocLines chapters sections)
        = ((sections.flatMap Prod.snd).filterMap (dictFind (tocScan chapters).parts)
            ++ ((tocScan chapters).parts.filter fun p =>
                !(decide (p.1 ∈ sections.flatMap Prod.snd))).map Prod.snd).flatMap
            (fun p => p.children) := by
      rw [hTL, chapterLinks_append, chapterLinks_append, chapterLinks_frontBlock,
        chapterLinks_sections, horph, chapterLinks_orphanBlock]
      rw [List.flatMap_append, List.flatMap_map]
      rfl
    rw [hCL]
    refine (List.Perm.flatMap_right _ (rendered_parts_perm _ _ hcfg hkeys)).trans ?_
    have heq : (((tocScan chapters).parts.map Prod.snd).flatMap fun p => p.children)
        = ((chapters.dropWhile fun c => !(c.level == 2)).filter
            fun c => !(c.level == 2)).map entryOf := by
      rw [hparts, List.flatMap_map]
      exact partsOf_children chapters
    rw [heq]

/-- Claim C1 counterexample: the claim as frozen quantifies over all
chapter lists, but when two level-2 records share the id
"flow-in-love" the later insertion overwrites the earlier dict node:
with the source's configured sections, record P1 appears as no part
link at all (only P2's link is rendered) and the intervening level-3
record "Chapter One" appears as no link anywhere. -/
theorem toc_navigation_cex :
    partLinks (tocLines
      [⟨"ch001-flow-in-love.xhtml", "flow-in-love", "P1", 2⟩,
       ⟨"ch002-chapter-one.xhtml", "chapter-one", "Chapter One", 3⟩,
       ⟨"ch003-flow-in-love.xhtml", "flow-in-love", "P2", 2⟩] MAJOR_SECTIONS)
      = [⟨"P2", "Text/ch003-flow-in-love.xhtml"⟩]
  ∧ Entry.mk "P1" "Text/ch001-flow-in-love.xhtml" ∉ partLinks (tocLines
      [⟨"ch001-flow-in-love.xhtml", "flow-in-love", "P1", 2⟩,
       ⟨"ch002-chapter-one.xhtml", "chapter-one", "Chapter One", 3⟩,
       ⟨"ch003-flow-in-love.xhtml", "flow-in-love", "P2", 2⟩] MAJOR_SECTIONS)
  ∧ chapterLinks (tocLines
      [⟨"ch001-flow-in-love.xhtml", "flow-in-love", "P1", 2⟩,
       ⟨"ch002-chapter-one.xhtml", "chapter-one", "Chapter One", 3⟩,
       ⟨"ch003-flow-in-love.xhtml", "flow-in-love", "P2", 2⟩] MAJOR_SECTIONS) = []
  ∧ frontLinks (tocLines
      [⟨"ch001-flow-in-love.xhtml", "flow-in-love", "P1", 2⟩,
       ⟨"ch002-chapter-one.xhtml", "chapter-one", "Chapter One", 3⟩,
       ⟨"ch003-flow-in-love.xhtml", "flow-in-love", "P2", 2⟩] MAJOR_SECTIONS) = [] := by
  refine ⟨by decide, by decide, by decide, by decide⟩

theorem toc_navigation_witness :
    frontLinks (tocLines
      [⟨"ch000-preface.xhtml", "preface", "Preface", 3⟩,
       ⟨"ch001-flow-in-love.xhtml", "flow-in-love", "Flow in Love", 2⟩,
       ⟨"ch002-chapter-one.xhtml", "chapter-one", "Chapter One", 3⟩] MAJOR_SECTIONS)
      = ([⟨"ch000-preface.xhtml", "preface", "Preface", 3⟩,
          ⟨"ch001-flow-in-love.xhtml", "flow-in-love", "Flow in Love", 2⟩,
          ⟨"ch002-chapter-one.xhtml", "chapter-one", "Chapter One", 3⟩].takeWhile
            fun c => !(c.level == 2)).map entryOf
  ∧ (tocScan
      [⟨"ch000-preface.xhtml", "preface", "Preface", 3⟩,
       ⟨"ch001-flow-in-love.xhtml", "flow-in-love", "Flow in Love", 2⟩,
       ⟨"ch002-chapter-one.xhtml", "chapter-one", "Chapter One", 3⟩]).parts
      = partsOf
        [⟨"ch000-preface.xhtml", "preface", "Preface", 3⟩,
         ⟨"ch001-flow-in-love.xhtml", "flow-in-love", "Flow in Love", 2⟩,
         ⟨"ch002-chapter-one.xhtml", "chapter-one", "Chapter One", 3⟩] :=
  have h := toc_navigation
    [⟨"ch000-preface.xhtml", "preface", "Preface", 3⟩,
     ⟨"ch001-flow-in-love.xhtml", "flow-in-love", "Flow in Love", 2⟩,
     ⟨"ch002-chapter-one.xhtml", "chapter-one", "Chapter One", 3⟩] MAJOR_SECTIONS
    (by decide) (by decide)
  ⟨h.1, h.2.2.2⟩

end BuildEpub
